import Mathlib

/-!
# Verification of the starkverifier repository against its specification

This file gives a shallow embedding, in Lean 4, of the core arithmetic of the
`starkverifier` repository (a STARK prover in `src/prover` and an on-chain
verifier in `src/contracts/stylus`), and proves or refutes the frozen claims
about it.

Conventions of the embedding:
* A BN254 scalar-field element is represented by its canonical value, a `Nat`
  strictly below the modulus `P`.  The verifier's Montgomery type `Fp` and the
  prover's `U256`-based `BN254Field` both maintain canonical representatives at
  every call site relevant to the claims, so both are embedded on canonical
  values; where the Montgomery representation itself matters (the verifier's
  `Fp::from_u256` / `Fp::to_u256` round trip) it is modelled explicitly.
* Machine loops carry explicit fuel where the source loops on a `U256`
  (`BN254Field::pow` runs one iteration per bit of a 256-bit exponent, hence
  fuel 256).
* `alloy_primitives::U256` values are represented by `Nat`; the source's
  `as_limbs()[0]` truncation is modelled by `% 2^64`.
* The repository's Poseidon hash is structurally present in the sources but its
  constant tables (`poseidon/constants.rs`) are not, so functions built on it
  are parameterised by an arbitrary two-input hash `h : Nat → Nat → Nat`;
  every theorem proved about them holds for the repository's instantiation.
-/

set_option maxRecDepth 100000

/-- BN254 scalar field modulus
`p = 21888242871839275222246405745257275088548364400416034343698204186575808495617`,
the `MODULUS` / `BN254_PRIME` constant of `src/contracts/stylus/src/field.rs`,
`src/contracts/stylus/src/poseidon/field.rs` and `src/prover/src/field.rs`. -/
def P : Nat := 21888242871839275222246405745257275088548364400416034343698204186575808495617

/-- `BN254Field::add`: modular addition on canonical values.  The source adds
with one conditional subtraction of `p`; on canonical inputs this is `(a+b) % p`. -/
def fadd (a b : Nat) : Nat := (a + b) % P

/-- `BN254Field::sub`: if `a ≥ b` then `a - b` else `p - (b - a)`. -/
def fsub (a b : Nat) : Nat := if b ≤ a then a - b else P - (b - a)

/-- `BN254Field::neg`: `0 ↦ 0`, otherwise `p - a`. -/
def fneg (a : Nat) : Nat := if a = 0 then 0 else P - a

/-- `BN254Field::mul`: `a.mul_mod(b, p)`, exact for all inputs. -/
def fmul (a b : Nat) : Nat := (a * b) % P

/-- `BN254Field::reduce`: one conditional subtraction of `p`. -/
def freduce (a : Nat) : Nat := if P ≤ a then a - P else a

/-- Right-to-left square-and-multiply loop shared by `BN254Field::pow` (both
crates) and `Fp::pow`: one iteration per exponent bit, with explicit fuel for
the `while e > 0` loop (a `U256` exponent needs at most 256 iterations). -/
def mpowAux (n : Nat) : Nat → Nat → Nat → Nat → Nat
  | 0, _, _, acc => acc
  | fuel + 1, b, e, acc =>
    if e = 0 then acc
    else mpowAux n fuel (b * b % n) (e / 2) (if e % 2 = 1 then acc * b % n else acc)

/-- Modular exponentiation `base^exp mod n` as implemented by the sources'
square-and-multiply with a 256-bit exponent. -/
def mpow (n b e : Nat) : Nat := mpowAux n 256 b e 1

/-- `BN254Field::pow` / `Fp::pow` over the BN254 scalar field. -/
def fpow (b e : Nat) : Nat := mpow P b e

/-- `BN254Field::inv` / `Fp::inv`: Fermat inversion `a^(p-2)`, returning `0` on `0`. -/
def finv (a : Nat) : Nat := if a = 0 then 0 else fpow a (P - 2)

/-- `BN254Field::div` / `Fp::div`: `a * inv(b)`. -/
def fdiv (a b : Nat) : Nat := fmul a (finv b)

theorem mpowAux_cast (n : Nat) :
    ∀ fuel b e acc, e < 2 ^ fuel →
      ((mpowAux n fuel b e acc : Nat) : ZMod n) = (acc : ZMod n) * (b : ZMod n) ^ e := by
  intro fuel
  induction fuel with
  | zero =>
    intro b e acc he
    interval_cases e
    simp [mpowAux]
  | succ f ih =>
    intro b e acc he
    by_cases h0 : e = 0
    · simp [mpowAux, h0]
    · have hdiv : e / 2 < 2 ^ f := by
        have h2 : (2:Nat) ^ (f + 1) = 2 * 2 ^ f := by ring
        omega
      rw [mpowAux, if_neg h0, ih _ _ _ hdiv]
      rcases Nat.mod_two_eq_zero_or_one e with hpar | hpar
      · rw [if_neg (by omega)]
        push_cast [ZMod.natCast_mod]
        have hb : (b : ZMod n) ^ e = ((b : ZMod n) * b) ^ (e / 2) := by
          rw [← pow_two, ← pow_mul]
          congr 1
          omega
        rw [hb]
      · rw [if_pos hpar]
        push_cast [ZMod.natCast_mod]
        have hb : (b : ZMod n) ^ e = ((b : ZMod n) * b) ^ (e / 2) * b := by
          rw [← pow_two, ← pow_mul, ← pow_succ]
          congr 1
          omega
        rw [hb]
        ring

theorem mpowAux_lt (n : Nat) (hn : 0 < n) :
    ∀ fuel b e acc, acc < n → mpowAux n fuel b e acc < n := by
  intro fuel
  induction fuel with
  | zero => intro b e acc hacc; simpa [mpowAux] using hacc
  | succ f ih =>
    intro b e acc hacc
    rw [mpowAux]
    split
    · exact hacc
    · apply ih
      split
      · exact Nat.mod_lt _ hn
      · exact hacc

theorem mpow_cast (n b e : Nat) (he : e < 2 ^ 256) :
    ((mpow n b e : Nat) : ZMod n) = (b : ZMod n) ^ e := by
  rw [mpow, mpowAux_cast n 256 b e 1 he]
  simp

theorem mpow_lt (n b e : Nat) (hn : 1 < n) : mpow n b e < n :=
  mpowAux_lt n (by omega) 256 b e 1 hn

/-!
## Primality of the BN254 scalar modulus

`P` is certified prime by a Pratt/Lucas chain, with all modular
exponentiations carried out by the executable `mpow` above.
-/

theorem lucasCert (q a : Nat) (hq : 1 < q) (hqs : q < 2 ^ 256)
    (hpow : mpow q a (q - 1) = 1)
    (hfac : ∀ r, r.Prime → r ∣ q - 1 → mpow q a ((q - 1) / r) ≠ 1) :
    q.Prime := by
  have hlt : ∀ e : Nat, e ≤ q - 1 → e < 2 ^ 256 := fun e he => by omega
  apply lucas_primality q ((a : Nat) : ZMod q)
  · rw [← mpow_cast q a (q - 1) (hlt _ le_rfl), hpow, Nat.cast_one]
  · intro r hr hdvd h1
    apply hfac r hr hdvd
    have hcast : ((mpow q a ((q - 1) / r) : Nat) : ZMod q) = ((1 : Nat) : ZMod q) := by
      rw [mpow_cast q a _ (hlt _ (Nat.div_le_self _ _)), Nat.cast_one]
      exact h1
    have hv := congrArg ZMod.val hcast
    rwa [ZMod.val_cast_of_lt (mpow_lt q a _ hq), ZMod.val_cast_of_lt hq] at hv

theorem prime_405928799 : Nat.Prime 405928799 := by
  apply lucasCert _ 22 (by norm_num) (by norm_num) (by decide)
  intro r hr hdvd
  have hN : 405928799 - 1 = 2 * (11 * (3691 * 4999)) := by norm_num
  rw [hN] at hdvd
  rcases (Nat.Prime.dvd_mul hr).mp hdvd with h | h
  · rw [(Nat.prime_dvd_prime_iff_eq hr (by norm_num)).mp h]
    decide
  rcases (Nat.Prime.dvd_mul hr).mp h with h | h
  · rw [(Nat.prime_dvd_prime_iff_eq hr (by norm_num)).mp h]
    decide
  rcases (Nat.Prime.dvd_mul hr).mp h with h | h
  · rw [(Nat.prime_dvd_prime_iff_eq hr (by norm_num)).mp h]
    decide
  · rw [(Nat.prime_dvd_prime_iff_eq hr (by norm_num)).mp h]
    decide

theorem prime_639533339 : Nat.Prime 639533339 := by
  apply lucasCert _ 2 (by norm_num) (by norm_num) (by decide)
  intro r hr hdvd
  have hN : 639533339 - 1 = 2 * (229 * (853 * 1637)) := by norm_num
  rw [hN] at hdvd
  rcases (Nat.Prime.dvd_mul hr).mp hdvd with h | h
  · rw [(Nat.prime_dvd_prime_iff_eq hr (by norm_num)).mp h]
    decide
  rcases (Nat.Prime.dvd_mul hr).mp h with h | h
  · rw [(Nat.prime_dvd_prime_iff_eq hr (by norm_num)).mp h]
    decide
  rcases (Nat.Prime.dvd_mul hr).mp h with h | h
  · rw [(Nat.prime_dvd_prime_iff_eq hr (by norm_num)).mp h]
    decide
  · rw [(Nat.prime_dvd_prime_iff_eq hr (by norm_num)).mp h]
    decide

theorem prime_12048837557 : Nat.Prime 12048837557 := by
  apply lucasCert _ 2 (by norm_num) (by norm_num) (by decide)
  intro r hr hdvd
  have hN : 12048837557 - 1 = 2^2 * (7^2 * (661 * 93001)) := by norm_num
  rw [hN] at hdvd
  rcases (Nat.Prime.dvd_mul hr).mp hdvd with h | h
  · rw [(Nat.prime_dvd_prime_iff_eq hr (by norm_num)).mp (hr.dvd_of_dvd_pow h)]
    decide
  rcases (Nat.Prime.dvd_mul hr).mp h with h | h
  · rw [(Nat.prime_dvd_prime_iff_eq hr (by norm_num)).mp (hr.dvd_of_dvd_pow h)]
    decide
  rcases (Nat.Prime.dvd_mul hr).mp h with h | h
  · rw [(Nat.prime_dvd_prime_iff_eq hr (by norm_num)).mp h]
    decide
  · rw [(Nat.prime_dvd_prime_iff_eq hr (by norm_num)).mp h]
    decide

theorem prime_5156902474397 : Nat.Prime 5156902474397 := by
  apply lucasCert _ 2 (by norm_num) (by norm_num) (by decide)
  intro r hr hdvd
  have hN : 5156902474397 - 1 = 2 * (2 * (107 * 12048837557)) := by norm_num
  rw [hN] at hdvd
  rcases (Nat.Prime.dvd_mul hr).mp hdvd with h | h
  · rw [(Nat.prime_dvd_prime_iff_eq hr (by norm_num)).mp h]
    decide
  rcases (Nat.Prime.dvd_mul hr).mp h with h | h
  · rw [(Nat.prime_dvd_prime_iff_eq hr (by norm_num)).mp h]
    decide
  rcases (Nat.Prime.dvd_mul hr).mp h with h | h
  · rw [(Nat.prime_dvd_prime_iff_eq hr (by norm_num)).mp h]
    decide
  · rw [(Nat.prime_dvd_prime_iff_eq hr prime_12048837557).mp h]
    decide

theorem prime_1670836401704629 : Nat.Prime 1670836401704629 := by
  apply lucasCert _ 2 (by norm_num) (by norm_num) (by decide)
  intro r hr hdvd
  have hN : 1670836401704629 - 1 = 2 * (2 * (3^4 * 5156902474397)) := by norm_num
  rw [hN] at hdvd
  rcases (Nat.Prime.dvd_mul hr).mp hdvd with h | h
  · rw [(Nat.prime_dvd_prime_iff_eq hr (by norm_num)).mp h]
    decide
  rcases (Nat.Prime.dvd_mul hr).mp h with h | h
  · rw [(Nat.prime_dvd_prime_iff_eq hr (by norm_num)).mp h]
    decide
  rcases (Nat.Prime.dvd_mul hr).mp h with h | h
  · rw [(Nat.prime_dvd_prime_iff_eq hr (by norm_num)).mp (hr.dvd_of_dvd_pow h)]
    decide
  · rw [(Nat.prime_dvd_prime_iff_eq hr prime_5156902474397).mp h]
    decide

theorem prime_65865678001877903 : Nat.Prime 65865678001877903 := by
  apply lucasCert _ 5 (by norm_num) (by norm_num) (by decide)
  intro r hr hdvd
  have hN : 65865678001877903 - 1 = 2 * (83 * (379 * (1637 * 639533339))) := by norm_num
  rw [hN] at hdvd
  rcases (Nat.Prime.dvd_mul hr).mp hdvd with h | h
  · rw [(Nat.prime_dvd_prime_iff_eq hr (by norm_num)).mp h]
    decide
  rcases (Nat.Prime.dvd_mul hr).mp h with h | h
  · rw [(Nat.prime_dvd_prime_iff_eq hr (by norm_num)).mp h]
    decide
  rcases (Nat.Prime.dvd_mul hr).mp h with h | h
  · rw [(Nat.prime_dvd_prime_iff_eq hr (by norm_num)).mp h]
    decide
  rcases (Nat.Prime.dvd_mul hr).mp h with h | h
  · rw [(Nat.prime_dvd_prime_iff_eq hr (by norm_num)).mp h]
    decide
  · rw [(Nat.prime_dvd_prime_iff_eq hr prime_639533339).mp h]
    decide

theorem prime_13818364434197438864469338081 : Nat.Prime 13818364434197438864469338081 := by
  apply lucasCert _ 3 (by norm_num) (by norm_num) (by decide)
  intro r hr hdvd
  have hN : 13818364434197438864469338081 - 1
      = 2^5 * (5 * (823 * (1593227 * 65865678001877903))) := by norm_num
  rw [hN] at hdvd
  rcases (Nat.Prime.dvd_mul hr).mp hdvd with h | h
  · rw [(Nat.prime_dvd_prime_iff_eq hr (by norm_num)).mp (hr.dvd_of_dvd_pow h)]
    decide
  rcases (Nat.Prime.dvd_mul hr).mp h with h | h
  · rw [(Nat.prime_dvd_prime_iff_eq hr (by norm_num)).mp h]
    decide
  rcases (Nat.Prime.dvd_mul hr).mp h with h | h
  · rw [(Nat.prime_dvd_prime_iff_eq hr (by norm_num)).mp h]
    decide
  rcases (Nat.Prime.dvd_mul hr).mp h with h | h
  · rw [(Nat.prime_dvd_prime_iff_eq hr (by norm_num)).mp h]
    decide
  · rw [(Nat.prime_dvd_prime_iff_eq hr prime_65865678001877903).mp h]
    decide

set_option maxHeartbeats 1000000 in
theorem P_prime : Nat.Prime P := by
  apply lucasCert _ 5 (by norm_num [P]) (by norm_num [P]) (by decide)
  intro r hr hdvd
  have hN : P - 1 = 2^28 * (3^2 * (13 * (29 * (983 * (11003 * (237073 * (405928799 *
      (1670836401704629 * 13818364434197438864469338081)))))))) := by norm_num [P]
  rw [hN] at hdvd
  rcases (Nat.Prime.dvd_mul hr).mp hdvd with h | h
  · rw [(Nat.prime_dvd_prime_iff_eq hr (by norm_num)).mp (hr.dvd_of_dvd_pow h)]
    decide
  rcases (Nat.Prime.dvd_mul hr).mp h with h | h
  · rw [(Nat.prime_dvd_prime_iff_eq hr (by norm_num)).mp (hr.dvd_of_dvd_pow h)]
    decide
  rcases (Nat.Prime.dvd_mul hr).mp h with h | h
  · rw [(Nat.prime_dvd_prime_iff_eq hr (by norm_num)).mp h]
    decide
  rcases (Nat.Prime.dvd_mul hr).mp h with h | h
  · rw [(Nat.prime_dvd_prime_iff_eq hr (by norm_num)).mp h]
    decide
  rcases (Nat.Prime.dvd_mul hr).mp h with h | h
  · rw [(Nat.prime_dvd_prime_iff_eq hr (by norm_num)).mp h]
    decide
  rcases (Nat.Prime.dvd_mul hr).mp h with h | h
  · rw [(Nat.prime_dvd_prime_iff_eq hr (by norm_num)).mp h]
    decide
  rcases (Nat.Prime.dvd_mul hr).mp h with h | h
  · rw [(Nat.prime_dvd_prime_iff_eq hr (by norm_num)).mp h]
    decide
  rcases (Nat.Prime.dvd_mul hr).mp h with h | h
  · rw [(Nat.prime_dvd_prime_iff_eq hr prime_405928799).mp h]
    decide
  rcases (Nat.Prime.dvd_mul hr).mp h with h | h
  · rw [(Nat.prime_dvd_prime_iff_eq hr prime_1670836401704629).mp h]
    decide
  · rw [(Nat.prime_dvd_prime_iff_eq hr prime_13818364434197438864469338081).mp h]
    decide

instance : Fact (Nat.Prime P) := ⟨P_prime⟩

theorem P_gt_one : 1 < P := by norm_num [P]

/-!
## Bridge between the executable field operations and `ZMod P`

Every executable operation on canonical representatives agrees with the
corresponding operation of the field `ZMod P`.
-/

/-- The BN254 scalar field, as a mathematical field. -/
abbrev Fq : Type := ZMod P

theorem cast_fadd (a b : Nat) : ((fadd a b : Nat) : Fq) = (a : Fq) + b := by
  rw [fadd, ZMod.natCast_mod]
  push_cast
  ring

theorem fadd_lt (a b : Nat) : fadd a b < P := Nat.mod_lt _ (by norm_num [P])

theorem cast_fmul (a b : Nat) : ((fmul a b : Nat) : Fq) = (a : Fq) * b := by
  rw [fmul, ZMod.natCast_mod]
  push_cast
  ring

theorem fmul_lt (a b : Nat) : fmul a b < P := Nat.mod_lt _ (by norm_num [P])

theorem cast_fsub (a b : Nat) (ha : a < P) (hb : b < P) :
    ((fsub a b : Nat) : Fq) = (a : Fq) - b := by
  rw [fsub]
  split
  · rw [Nat.cast_sub (by omega)]
  · rw [Nat.cast_sub (by omega), Nat.cast_sub (by omega), ZMod.natCast_self]
    ring

theorem fsub_lt (a b : Nat) (ha : a < P) : fsub a b < P := by
  rw [fsub]
  split <;> omega

theorem cast_fneg (a : Nat) (ha : a < P) : ((fneg a : Nat) : Fq) = -(a : Fq) := by
  rw [fneg]
  split
  · simp [*]
  · rw [Nat.cast_sub (by omega), ZMod.natCast_self]
    ring

theorem fneg_lt (a : Nat) (ha : a < P) (ha0 : 0 < a) : fneg a < P := by
  rw [fneg]
  split <;> omega

theorem cast_fpow (b e : Nat) (he : e < 2 ^ 256) :
    ((fpow b e : Nat) : Fq) = (b : Fq) ^ e := mpow_cast P b e he

theorem fpow_lt (b e : Nat) : fpow b e < P := mpow_lt P b e P_gt_one

theorem natCast_ne_zero_of_lt {a : Nat} (ha : a < P) (ha0 : a ≠ 0) : (a : Fq) ≠ 0 := by
  intro h
  rcases (ZMod.natCast_zmod_eq_zero_iff_dvd a P).mp h with ⟨c, hc⟩
  rcases c with _ | c
  · omega
  · have : P ≤ a := by
      calc P = P * 1 := by ring
        _ ≤ P * (c + 1) := by exact Nat.mul_le_mul_left P (by omega)
        _ = a := hc.symm
    omega

theorem cast_finv (a : Nat) (ha : a < P) : ((finv a : Nat) : Fq) = (a : Fq)⁻¹ := by
  rw [finv]
  split
  · simp [*]
  · rw [cast_fpow a _ (by norm_num [P])]
    have hne : (a : Fq) ≠ 0 := natCast_ne_zero_of_lt ha (by assumption)
    have h1 : (a : Fq) ^ (P - 2) * a = 1 := by
      rw [← pow_succ]
      have hP2 : P - 2 + 1 = P - 1 := by norm_num [P]
      rw [hP2]
      exact ZMod.pow_card_sub_one_eq_one hne
    exact eq_inv_of_mul_eq_one_left h1

theorem finv_lt (a : Nat) : finv a < P := by
  rw [finv]
  split
  · norm_num [P]
  · exact fpow_lt a _

theorem cast_fdiv (a b : Nat) (hb : b < P) : ((fdiv a b : Nat) : Fq) = (a : Fq) / b := by
  rw [fdiv, cast_fmul, cast_finv b hb, div_eq_mul_inv]

theorem fdiv_lt (a b : Nat) : fdiv a b < P := fmul_lt _ _

theorem cast_freduce (a : Nat) (ha : a < 2 * P) : ((freduce a : Nat) : Fq) = (a : Fq) := by
  rw [freduce]
  split
  · rw [Nat.cast_sub (by omega), ZMod.natCast_self]
    ring
  · rfl

theorem freduce_lt (a : Nat) (ha : a < 2 * P) : freduce a < P := by
  rw [freduce]
  split <;> omega

theorem castFq_inj {a b : Nat} (ha : a < P) (hb : b < P) (h : (a : Fq) = b) : a = b := by
  have := congrArg ZMod.val h
  rwa [ZMod.val_cast_of_lt ha, ZMod.val_cast_of_lt hb] at this

/-!
## C1 — the Sharpe AIR transition constraints

Embedding of `evaluate_transition` and `evaluate_boundary_quotients` from
`src/contracts/stylus/src/stark/sharpe_air.rs`, of `transition_zerofier_at`
(same file), and of the prover's `compute_sharpe_composition_at_z` from
`src/prover/src/lib.rs`.  Trace row tuples `[Fp; 6]` are embedded as
`Fin 6 → Nat` on canonical values.
-/

/-- `SHARPE_SCALE = 10000` (`sharpe_scale_fp`, and `SHARPE_SCALE` in
`src/prover/src/mock_data.rs`). -/
def SHARPE_SCALE : Nat := 10000

/-- `evaluate_transition` (verifier, `sharpe_air.rs`): the five transition
constraint values at a pair of row tuples; `TC4` is the hard-coded
`Fp::ZERO` placeholder of the source. -/
def evaluateTransition (current next : Fin 6 → Nat) : Fin 5 → Nat
  | 0 => fsub (next 2) (fadd (current 2) (next 0))
  | 1 => fsub (current 1) (fmul (current 0) (current 0))
  | 2 => fsub (next 3) (fadd (current 3) (next 1))
  | 3 => fsub (next 4) (current 4)
  | 4 => 0

/-- `transition_zerofier_at` (`sharpe_air.rs`): `(z^n - 1) / (z - g^(n-1))`. -/
def transitionZerofierAt (z traceLen traceGen : Nat) : Nat :=
  fdiv (fsub (fpow z traceLen) 1) (fsub z (fpow traceGen (traceLen - 1)))

/-- `evaluate_boundary_quotients` (`sharpe_air.rs`): the four boundary
quotients at the OOD point, from the row tuple at `z` and the public inputs
`[trade_count, total_return, sharpe_sq_scaled, merkle_root]`. -/
def evaluateBoundaryQuotients (traceAtZ : Fin 6 → Nat) (z first last : Nat)
    (pubs : Fin 4 → Nat) : Fin 4 → Nat :=
  let denFirst := fsub z first
  let denLast := fsub z last
  fun i => match i with
  | 0 => fdiv (fsub (traceAtZ 2) (traceAtZ 0)) denFirst
  | 1 => fdiv (fsub (traceAtZ 3) (traceAtZ 1)) denFirst
  | 2 => fdiv (fsub (traceAtZ 2) (pubs 1)) denLast
  | 3 =>
    let cumRetSq := fmul (traceAtZ 2) (traceAtZ 2)
    let lhs := fmul cumRetSq SHARPE_SCALE
    let nCumSq := fmul (pubs 0) (traceAtZ 3)
    let denomInner := fsub nCumSq cumRetSq
    let rhs := fmul (pubs 2) denomInner
    fdiv (fsub lhs rhs) denLast

/-- `compute_sharpe_composition_at_z` (prover, `src/prover/src/lib.rs`):
the scalar composition value at the OOD point — five transition quotients
(`tc4 = U256::ZERO` is the placeholder) followed by four boundary
quotients, folded with the nine challenges. -/
def computeSharpeCompositionAtZ (ood oodNext : Fin 6 → Nat) (z traceGen traceLen : Nat)
    (pubs : Fin 4 → Nat) (alphas : Fin 9 → Nat) : Nat :=
  let tc0 := fsub (oodNext 2) (fadd (ood 2) (oodNext 0))
  let tc1 := fsub (ood 1) (fmul (ood 0) (ood 0))
  let tc2 := fsub (oodNext 3) (fadd (ood 3) (oodNext 1))
  let tc3 := fsub (oodNext 4) (ood 4)
  let tc4 := 0
  let gLast := fpow traceGen (traceLen - 1)
  let zerofier := fdiv (fsub (fpow z traceLen) 1) (fsub z gLast)
  let tq0 := fdiv tc0 zerofier
  let tq1 := fdiv tc1 zerofier
  let tq2 := fdiv tc2 zerofier
  let tq3 := fdiv tc3 zerofier
  let tq4 := fdiv tc4 zerofier
  let denFirst := fsub z 1
  let denLast := fsub z gLast
  let bq0 := fdiv (fsub (ood 2) (ood 0)) denFirst
  let bq1 := fdiv (fsub (ood 3) (ood 1)) denFirst
  let bq2 := fdiv (fsub (ood 2) (pubs 1)) denLast
  let cumRetSq := fmul (ood 2) (ood 2)
  let bc3Num := fsub (fmul cumRetSq SHARPE_SCALE) (fmul (pubs 2) (fsub (fmul (pubs 0) (ood 3)) cumRetSq))
  let bq3 := fdiv bc3Num denLast
  fadd (fadd (fadd (fadd (fadd (fadd (fadd (fadd
    (fmul (alphas 0) tq0)
    (fmul (alphas 1) tq1))
    (fmul (alphas 2) tq2))
    (fmul (alphas 3) tq3))
    (fmul (alphas 4) tq4))
    (fmul (alphas 5) bq0))
    (fmul (alphas 6) bq1))
    (fmul (alphas 7) bq2))
    (fmul (alphas 8) bq3)

/-- C1 counterexample: the claim "TC4 evaluates to
`next.commitment − current.commitment`" is false for the code: at
`current = 0⃗`, `next = (0,0,0,0,0,1)` the code's fifth transition value is
`0` while `next[5] − current[5] = 1`. -/
theorem C1_counterexample :
    ¬ (∀ current next : Fin 6 → Nat,
        evaluateTransition current next 4 = fsub (next 5) (current 5)) := by
  intro h
  have h0 := h (fun _ => 0) (fun i => if i = 5 then 1 else 0)
  simp [evaluateTransition, fsub] at h0

/-- C1 (amended): the fifth transition constraint `TC4` is the constant `0`
placeholder — it vanishes on every pair of row tuples whatever the
dataset-commitment column does — and accordingly the prover's composition
value at the OOD point does not depend on the commitment entries (index 5)
of either OOD row tuple. -/
theorem C1_amended :
    (∀ current next : Fin 6 → Nat, evaluateTransition current next 4 = 0) ∧
    (∀ ood oodNext : Fin 6 → Nat, ∀ z traceGen traceLen : Nat,
      ∀ pubs : Fin 4 → Nat, ∀ alphas : Fin 9 → Nat, ∀ x y : Nat,
        computeSharpeCompositionAtZ (Function.update ood 5 x)
            (Function.update oodNext 5 y) z traceGen traceLen pubs alphas
          = computeSharpeCompositionAtZ ood oodNext z traceGen traceLen pubs alphas) := by
  constructor
  · intro current next
    rfl
  · intro ood oodNext z traceGen traceLen pubs alphas x y
    simp [computeSharpeCompositionAtZ, Function.update_apply]

/-!
## Keccak256 and the shared hash `H`

Executable model of `keccak256` (the `tiny_keccak` / Stylus precompile
function used by `src/prover/src/keccak.rs` and
`src/contracts/stylus/src/lib.rs`), operating on byte lists, with 64-bit
lanes as `Nat` masked to `2^64`.
-/

/-- Round constants of Keccak-f[1600]. -/
def keccakRC : List Nat :=
  [0x1, 0x8082, 0x800000000000808a, 0x8000000080008000,
   0x808b, 0x80000001, 0x8000000080008081, 0x8000000000008009,
   0x8a, 0x88, 0x80008009, 0x8000000a,
   0x8000808b, 0x800000000000008b, 0x8000000000008089, 0x8000000000008003,
   0x8000000000008002, 0x8000000000000080, 0x800a, 0x800000008000000a,
   0x8000000080008081, 0x8000000000008080, 0x80000001, 0x8000000080008008]

/-- Source lane index of the combined rho-pi step: lane `j` of the permuted
state is lane `keccakSrc[j]` of the input state rotated by `keccakOff[j]`. -/
def keccakSrc : List Nat :=
  [0, 6, 12, 18, 24, 3, 9, 10, 16, 22, 1, 7, 13, 19, 20, 4, 5, 11, 17, 23, 2, 8, 14, 15, 21]

/-- Rotation offsets of the combined rho-pi step. -/
def keccakOff : List Nat :=
  [0, 44, 43, 21, 14, 28, 20, 3, 45, 61, 1, 6, 25, 8, 18, 27, 36, 10, 15, 56, 62, 55, 39, 41, 2]

/-- 64-bit left rotation. -/
def rotl64 (r x : Nat) : Nat := ((x <<< r) ||| (x >>> (64 - r))) &&& (2 ^ 64 - 1)

/-- One round of Keccak-f[1600] (theta, rho, pi, chi, iota). -/
def keccakRound (A : List Nat) (rc : Nat) : List Nat :=
  let c := fun x => A.getD x 0 ^^^ A.getD (x + 5) 0 ^^^ A.getD (x + 10) 0 ^^^
    A.getD (x + 15) 0 ^^^ A.getD (x + 20) 0
  let d := fun x => c ((x + 4) % 5) ^^^ rotl64 1 (c ((x + 1) % 5))
  let At := (List.range 25).map (fun i => A.getD i 0 ^^^ d (i % 5))
  let B := (List.range 25).map (fun j => rotl64 (keccakOff.getD j 0) (At.getD (keccakSrc.getD j 0) 0))
  let Ax := (List.range 25).map (fun i =>
    let x := i % 5
    let y := i / 5
    B.getD i 0 ^^^ (((2 ^ 64 - 1) ^^^ B.getD ((x + 1) % 5 + 5 * y) 0) &&& B.getD ((x + 2) % 5 + 5 * y) 0))
  match Ax with
  | a0 :: rest => (a0 ^^^ rc) :: rest
  | [] => []

/-- Keccak-f[1600]: 24 rounds. -/
def keccakF (A : List Nat) : List Nat := keccakRC.foldl keccakRound A

/-- A little-endian 64-bit lane from up to 8 bytes. -/
def laneOfBytes (bs : List Nat) : Nat := bs.foldr (fun b acc => acc * 256 + b) 0

/-- Absorb one 136-byte rate block and permute. -/
def keccakAbsorb (A block : List Nat) : List Nat :=
  let lanes := (List.range 17).map (fun i => laneOfBytes ((block.drop (8 * i)).take 8))
  keccakF ((List.range 25).map (fun i => A.getD i 0 ^^^ lanes.getD i 0))

/-- Absorb all rate blocks (fuel bounds the number of 136-byte blocks). -/
def keccakAbsorbAux : Nat → List Nat → List Nat → List Nat
  | 0, A, _ => A
  | fuel + 1, A, msg =>
    if msg.isEmpty then A
    else keccakAbsorbAux fuel (keccakAbsorb A (msg.take 136)) (msg.drop 136)

/-- The `pad10*1` padding of keccak256 (rate 136). -/
def keccakPad (msg : List Nat) : List Nat :=
  let padLen := 136 - msg.length % 136
  if padLen = 1 then msg ++ [0x81]
  else msg ++ [0x01] ++ List.replicate (padLen - 2) 0 ++ [0x80]

/-- A 64-bit lane as 8 little-endian bytes. -/
def leBytes8 (v : Nat) : List Nat := (List.range 8).map (fun i => v / 2 ^ (8 * i) % 256)

/-- `keccak256` of a byte list: pad, absorb, squeeze 32 bytes. -/
def keccak256 (msg : List Nat) : List Nat :=
  let padded := keccakPad msg
  let A := keccakAbsorbAux (padded.length / 136 + 1) (List.replicate 25 0) padded
  leBytes8 (A.getD 0 0) ++ leBytes8 (A.getD 1 0) ++ leBytes8 (A.getD 2 0) ++ leBytes8 (A.getD 3 0)

/-- A `U256` serialised as 32 big-endian bytes (`to_be_bytes`). -/
def beBytes32 (v : Nat) : List Nat := (List.range 32).map (fun i => v / 2 ^ (8 * (31 - i)) % 256)

/-- 32 big-endian bytes read back as an integer (`U256::from_be_bytes`). -/
def fromBeBytes (bs : List Nat) : Nat := bs.foldl (fun acc b => acc * 256 + b) 0

/-- The prover's `keccak_hash_two` (`src/prover/src/keccak.rs`): serialise
both `U256` inputs big-endian, hash the 64 bytes, read big-endian, then
reduce with `raw.mul_mod(1, BN254_PRIME)`. -/
def proverKeccakHashTwo (a b : Nat) : Nat :=
  fmul (fromBeBytes (keccak256 (beBytes32 a ++ beBytes32 b))) 1

/-- `R = 2^256`, the Montgomery radix of the verifier's `Fp`. -/
def R256 : Nat := 2 ^ 256

/-- `R⁻¹ mod p`: the constant by which one Montgomery reduction divides. -/
def RINV : Nat := 9915499612839321149637521777990102151350674507940716049588462388200839649614

/-- `R² mod p`, the `R2` constant of `src/contracts/stylus/src/field.rs`
(limbs `[0x1bb8e645ae216da7, 0x53fe3ab1e35c59e3, 0x8c49833d53bb8085, 0x0216d0b17f4e44a5]`). -/
def R2 : Nat :=
  0x0216d0b17f4e44a58c49833d53bb808553fe3ab1e35c59e31bb8e645ae216da7

/-- Semantics of `mont_mul` (`field.rs`): `a·b·R⁻¹ mod p`. -/
def montMul (a b : Nat) : Nat := a * b * RINV % P

/-- `Fp::from_u256`: `mont_mul(v, R2)`, producing the Montgomery residue. -/
def fpFromU256 (v : Nat) : Nat := montMul v R2

/-- `Fp::to_u256`: `mont_mul(m, 1)`, recovering the canonical value. -/
def fpToU256 (m : Nat) : Nat := montMul m 1

/-- The verifier's `keccak_hash_two` (`src/contracts/stylus/src/lib.rs`) on
Montgomery residues: serialise both operands' canonical values big-endian,
hash with the Stylus keccak precompile, and lift the 256-bit result back
with `Fp::from_u256`. -/
def verifierKeccakHashTwo (a b : Nat) : Nat :=
  fpFromU256 (fromBeBytes (keccak256 (beBytes32 (fpToU256 a) ++ beBytes32 (fpToU256 b))))

/-- Canonical-value form of the shared hash `H`: both sides compute
`reduce(BE256(keccak256(BE32(a) ‖ BE32(b))))`. -/
def keccakHashTwo (a b : Nat) : Nat :=
  fromBeBytes (keccak256 (beBytes32 a ++ beBytes32 b)) % P

theorem cast_montMul (a b : Nat) : ((montMul a b : Nat) : Fq) = (a : Fq) * b * RINV := by
  rw [montMul, ZMod.natCast_mod]
  push_cast
  ring

theorem montMul_lt (a b : Nat) : montMul a b < P := Nat.mod_lt _ (by norm_num [P])

theorem R2_RINV_RINV : (R2 * RINV * RINV) % P = 1 := by decide

/-- The Montgomery round trip `Fp::to_u256 ∘ Fp::from_u256` reduces a raw
`U256` to its canonical value. -/
theorem fpToU256_fpFromU256 (v : Nat) : fpToU256 (fpFromU256 v) = v % P := by
  apply castFq_inj (montMul_lt _ _) (Nat.mod_lt _ (by norm_num [P]))
  have h1 : ((fpToU256 (fpFromU256 v) : Nat) : Fq) = (v : Fq) * ((R2 * RINV * RINV : Nat) : Fq) := by
    rw [fpToU256, fpFromU256, cast_montMul, cast_montMul]
    push_cast
    ring
  have h2 : ((R2 * RINV * RINV : Nat) : Fq) = 1 := by
    rw [← ZMod.natCast_mod, R2_RINV_RINV, Nat.cast_one]
  show ((fpToU256 (fpFromU256 v) : Nat) : Fq) = ((v % P : Nat) : Fq)
  rw [h1, h2, mul_one, ZMod.natCast_mod]

/-- C8: for canonical field elements `a, b < p`, the verifier's
`keccak_hash_two` (on Montgomery residues, read back through `Fp::to_u256`)
equals the prover's `keccak_hash_two`, and the common output is `< p`. -/
theorem C8_keccak_hash_two_equiv (a b : Nat) (ha : a < P) (hb : b < P) :
    fpToU256 (verifierKeccakHashTwo (fpFromU256 a) (fpFromU256 b)) = proverKeccakHashTwo a b
      ∧ proverKeccakHashTwo a b < P := by
  have hra : fpToU256 (fpFromU256 a) = a := by rw [fpToU256_fpFromU256, Nat.mod_eq_of_lt ha]
  have hrb : fpToU256 (fpFromU256 b) = b := by rw [fpToU256_fpFromU256, Nat.mod_eq_of_lt hb]
  constructor
  · rw [verifierKeccakHashTwo, hra, hrb, fpToU256_fpFromU256, proverKeccakHashTwo, fmul,
      Nat.mul_one]
  · exact Nat.mod_lt _ (by norm_num [P])

/-- C8 witness: the equivalence at the concrete canonical pair `(1, 2)`. -/
theorem C8_witness :
    fpToU256 (verifierKeccakHashTwo (fpFromU256 1) (fpFromU256 2)) = proverKeccakHashTwo 1 2
      ∧ proverKeccakHashTwo 1 2 < P :=
  C8_keccak_hash_two_equiv 1 2 (by norm_num [P]) (by norm_num [P])

/-- The spec's cross-check vectors `H(0,0)`, `H(1,2)`, `H(p−1,42)`, evaluated
on the executable model (values cross-checked against an independent
keccak256 implementation). -/
theorem keccakHashTwo_vectors :
    keccakHashTwo 0 0
        = 12674017531719144457961514489412020155949820310579084257497356610663280697266
      ∧ keccakHashTwo 1 2
        = 17856212038068422348937662473302114032147350344021172871924595963388108456668
      ∧ keccakHashTwo (P - 1) 42
        = 17878406425904265204565859337966299730021522332990899988358201506872027664034 := by
  refine ⟨by decide, by decide, by decide⟩

/-!
## C9 — FRI folding

`fri_fold` and `INV_TWO` from `src/contracts/stylus/src/stark/fri.rs`, and
the per-pair fold of the prover's `fri_commit` loop
(`src/prover/src/fri.rs`).
-/

/-- The verifier's precomputed `INV_TWO` constant (limbs
`[0xa1f0fac9f8000001, 0x9419f4243cdcb848, 0xdc2822db40c0ac2e, 0x183227397098d014]`). -/
def INV_TWO : Nat :=
  0x183227397098d014dc2822db40c0ac2e9419f4243cdcb848a1f0fac9f8000001

/-- `fri_fold` (verifier): `(f(x)+f(−x))·INV_TWO + α·(((f(x)−f(−x))·INV_TWO)/x)`. -/
def friFold (fx fNegX alpha x : Nat) : Nat :=
  let even := fmul (fadd fx fNegX) INV_TWO
  let halfDiff := fmul (fsub fx fNegX) INV_TWO
  let odd := fdiv halfDiff x
  fadd even (fmul alpha odd)

/-- The per-pair fold computed inside the prover's `fri_commit`:
`(f(x)+f(−x))/2 + α·((f(x)−f(−x))/(2·x))` with field division throughout. -/
def proverFriFold (fx fNegX alpha x : Nat) : Nat :=
  let even := fdiv (fadd fx fNegX) 2
  let odd := fdiv (fsub fx fNegX) (fmul 2 x)
  fadd even (fmul alpha odd)

theorem cast_INV_TWO : ((INV_TWO : Nat) : Fq) = (2 : Fq)⁻¹ := by
  have h : (2 * INV_TWO) % P = 1 := by decide
  have h2 : ((2 * INV_TWO : Nat) : Fq) = 1 := by
    rw [← ZMod.natCast_mod, h, Nat.cast_one]
  push_cast at h2
  exact eq_inv_of_mul_eq_one_right h2

theorem two_ne_zero_Fq : (2 : Fq) ≠ 0 := by
  have h := natCast_ne_zero_of_lt (a := 2) (by norm_num [P]) (by norm_num)
  push_cast at h
  exact h

/-- C9: for canonical inputs with `x ≠ 0`, the verifier's `fri_fold` (via the
precomputed `INV_TWO`) equals the spec's field-division formula
`(f(x)+f(−x))/2 + α·(f(x)−f(−x))/(2x)` and equals the prover's per-pair fold. -/
theorem C9_fri_fold_equiv (fx fNegX alpha x : Nat)
    (hfx : fx < P) (hfnx : fNegX < P) (hx : x < P) (hx0 : x ≠ 0) :
    friFold fx fNegX alpha x = proverFriFold fx fNegX alpha x
      ∧ ((friFold fx fNegX alpha x : Nat) : Fq)
          = ((fx : Fq) + fNegX) / 2 + (alpha : Fq) * (((fx : Fq) - fNegX) / (2 * x)) := by
  have hxq : (x : Fq) ≠ 0 := natCast_ne_zero_of_lt hx hx0
  have hV : ((friFold fx fNegX alpha x : Nat) : Fq)
      = ((fx : Fq) + fNegX) * (2 : Fq)⁻¹
        + (alpha : Fq) * (((fx : Fq) - fNegX) * (2 : Fq)⁻¹ * (x : Fq)⁻¹) := by
    simp only [friFold, cast_fadd, cast_fmul, cast_fdiv _ _ hx,
      cast_fsub _ _ hfx hfnx, cast_INV_TWO, div_eq_mul_inv]
  have hP : ((proverFriFold fx fNegX alpha x : Nat) : Fq)
      = ((fx : Fq) + fNegX) * (2 : Fq)⁻¹
        + (alpha : Fq) * (((fx : Fq) - fNegX) * ((2 : Fq) * x)⁻¹) := by
    have h2P : (2 : Nat) < P := by norm_num [P]
    simp only [proverFriFold, cast_fadd, cast_fmul, cast_fdiv _ _ (fmul_lt 2 x),
      cast_fdiv _ _ h2P, cast_fsub _ _ hfx hfnx, div_eq_mul_inv]
    push_cast
    ring
  constructor
  · have hVlt : friFold fx fNegX alpha x < P := fadd_lt _ _
    have hPlt : proverFriFold fx fNegX alpha x < P := fadd_lt _ _
    apply castFq_inj hVlt hPlt
    rw [hV, hP, mul_inv_rev]
    ring
  · rw [hV, div_eq_mul_inv, div_eq_mul_inv, mul_inv_rev]
    ring

/-- C9 witness: the fold equivalence at the concrete canonical input
`f(x)=5, f(−x)=9, α=7, x=3`. -/
theorem C9_witness :
    friFold 5 9 7 3 = proverFriFold 5 9 7 3
      ∧ ((friFold 5 9 7 3 : Nat) : Fq)
          = ((5 : Fq) + 9) / 2 + (7 : Fq) * (((5 : Fq) - 9) / (2 * 3)) := by
  have h := C9_fri_fold_equiv 5 9 7 3 (by norm_num [P]) (by norm_num [P]) (by norm_num [P])
    (by norm_num)
  push_cast at h ⊢
  exact h

/-!
## C6 / C2 — Merkle commitment and verification

The prover's `MerkleTree` (`src/prover/src/commit.rs`) builds the tree level
by level (the source stores all levels in one flat vector; the embedding
keeps the level structure explicitly).  The verifier's `MerkleVerifier`
(`src/contracts/stylus/src/merkle.rs`) folds a leaf up the tree.  Both are
parameterised by the two-input hash `h` they use (the sources instantiate
`h` with `PoseidonHasher::hash_two`, whose constant tables are not part of
the sources).
-/

/-- One tree level from the previous one: hash consecutive pairs
(`nodes[level_start + 2i]`, `nodes[level_start + 2i + 1]`). -/
def nextLevel (h : Nat → Nat → Nat) : List Nat → List Nat
  | a :: b :: rest => h a b :: nextLevel h rest
  | _ => []

/-- The `while level_size > 1` build loop of `MerkleTree::build`, fuelled by
the leaf count; returns the root (`nodes.last()`). -/
def merkleRootAux (h : Nat → Nat → Nat) : Nat → List Nat → Nat
  | 0, lvl => lvl.getD 0 0
  | fuel + 1, lvl =>
    if lvl.length ≤ 1 then lvl.getD 0 0 else merkleRootAux h fuel (nextLevel h lvl)

/-- `MerkleTree::build(leaves).root()`. -/
def MerkleTree.buildRoot (h : Nat → Nat → Nat) (leaves : List Nat) : Nat :=
  merkleRootAux h leaves.length leaves

/-- The per-level loop of `MerkleTree::auth_path`: records the sibling
(`idx ^ 1`) and the side bit (`idx % 2 == 1`), then moves to `idx / 2`. -/
def authPathAux (h : Nat → Nat → Nat) : Nat → List Nat → Nat → List Nat × List Bool
  | 0, _, _ => ([], [])
  | fuel + 1, lvl, idx =>
    if lvl.length ≤ 1 then ([], [])
    else
      let sib := if idx % 2 = 0 then idx + 1 else idx - 1
      let rest := authPathAux h fuel (nextLevel h lvl) (idx / 2)
      (lvl.getD sib 0 :: rest.1, decide (idx % 2 = 1) :: rest.2)

/-- `MerkleTree::build(leaves).auth_path(i)`: `(path, indices)`. -/
def MerkleTree.buildAuthPath (h : Nat → Nat → Nat) (leaves : List Nat) (i : Nat) :
    List Nat × List Bool :=
  authPathAux h leaves.length leaves i

/-- `MerkleVerifier::verify` (`merkle.rs`): length check, empty-path check,
then fold the leaf up deciding the hash order by each side bit. -/
def MerkleVerifier.verify (h : Nat → Nat → Nat) (root leaf : Nat)
    (path : List Nat) (indices : List Bool) : Bool :=
  if path.length ≠ indices.length then false
  else if path.isEmpty then decide (leaf = root)
  else
    decide (((path.zip indices).foldl
      (fun cur si => if si.2 then h si.1 cur else h cur si.1) leaf) = root)

theorem nextLevel_length (h : Nat → Nat → Nat) :
    ∀ l : List Nat, (nextLevel h l).length = l.length / 2
  | [] => by simp [nextLevel]
  | [a] => by simp [nextLevel]
  | a :: b :: rest => by
    rw [nextLevel]
    simp only [List.length_cons, nextLevel_length h rest]
    omega

theorem nextLevel_getD (h : Nat → Nat → Nat) :
    ∀ (l : List Nat) (i : Nat), 2 * i + 1 < l.length →
      (nextLevel h l).getD i 0 = h (l.getD (2 * i) 0) (l.getD (2 * i + 1) 0)
  | [], i, hi => by simp at hi
  | [a], i, hi => by simp at hi
  | a :: b :: rest, 0, hi => by simp [nextLevel]
  | a :: b :: rest, i + 1, hi => by
    have hrec := nextLevel_getD h rest i (by simp at hi ⊢; omega)
    have h2 : 2 * (i + 1) = 2 * i + 2 := by ring
    simp only [nextLevel, h2, List.getD_cons_succ]
    exact hrec

theorem authPathAux_length (h : Nat → Nat → Nat) :
    ∀ fuel lvl idx, (authPathAux h fuel lvl idx).1.length = (authPathAux h fuel lvl idx).2.length := by
  intro fuel
  induction fuel with
  | zero => intro lvl idx; simp [authPathAux]
  | succ f ih =>
    intro lvl idx
    rw [authPathAux]
    split
    · simp
    · simpa using ih (nextLevel h lvl) (idx / 2)

theorem verify_cons (h : Nat → Nat → Nat) (root leaf s : Nat) (b : Bool)
    (p : List Nat) (bs : List Bool) (hlen : p.length = bs.length) :
    MerkleVerifier.verify h root leaf (s :: p) (b :: bs)
      = MerkleVerifier.verify h root (if b then h s leaf else h leaf s) p bs := by
  rcases p with _ | ⟨q, p'⟩
  · rcases bs with _ | ⟨c, bs'⟩
    · simp [MerkleVerifier.verify]
    · simp at hlen
  · rcases bs with _ | ⟨c, bs'⟩
    · simp at hlen
    · simp [MerkleVerifier.verify, hlen]

theorem merkle_roundtrip_aux (h : Nat → Nat → Nat) :
    ∀ k fuel (lvl : List Nat) (i : Nat), lvl.length = 2 ^ k → k ≤ fuel → i < 2 ^ k →
      MerkleVerifier.verify h (merkleRootAux h fuel lvl) (lvl.getD i 0)
        (authPathAux h fuel lvl i).1 (authPathAux h fuel lvl i).2 = true := by
  intro k
  induction k with
  | zero =>
    intro fuel lvl i hlen hfuel hi
    interval_cases i
    have hone : lvl.length ≤ 1 := by omega
    rcases fuel with _ | f <;>
      simp [merkleRootAux, authPathAux, MerkleVerifier.verify, hone]
  | succ k ih =>
    intro fuel lvl i hlen hfuel hi
    rcases fuel with _ | f
    · omega
    have hpow : (2:Nat) ^ (k + 1) = 2 * 2 ^ k := by ring
    have hgt : ¬ lvl.length ≤ 1 := by
      have : (1:Nat) ≤ 2 ^ k := Nat.one_le_two_pow
      omega
    have hnl : (nextLevel h lvl).length = 2 ^ k := by
      rw [nextLevel_length h lvl, hlen, hpow]
      omega
    have hsplit : 2 * (i / 2) + 1 < lvl.length := by
      rcases Nat.mod_two_eq_zero_or_one i with hp | hp <;> omega
    rw [merkleRootAux, if_neg hgt, authPathAux, if_neg hgt]
    have hlens := authPathAux_length h f (nextLevel h lvl) (i / 2)
    rw [verify_cons h _ _ _ _ _ _ hlens]
    have hleaf :
        (if decide (i % 2 = 1) = true then h (lvl.getD (if i % 2 = 0 then i + 1 else i - 1) 0) (lvl.getD i 0)
         else h (lvl.getD i 0) (lvl.getD (if i % 2 = 0 then i + 1 else i - 1) 0))
          = (nextLevel h lvl).getD (i / 2) 0 := by
      rcases Nat.mod_two_eq_zero_or_one i with hp | hp
      · have e2 : 2 * (i / 2) = i := by omega
        rw [nextLevel_getD h lvl (i / 2) hsplit, e2]
        simp [hp]
      · have e2 : 2 * (i / 2) + 1 = i := by omega
        rw [nextLevel_getD h lvl (i / 2) hsplit, e2,
          show 2 * (i / 2) = i - 1 by omega]
        simp [hp]
    rw [hleaf]
    exact ih f (nextLevel h lvl) (i / 2) hnl (by omega) (by omega)

/-- C6: for every hash `h`, every power-of-two leaf list and every leaf
index, `MerkleVerifier::verify` accepts the authentication path produced by
`MerkleTree::build(..).auth_path(..)` against the tree's root. -/
theorem C6_merkle_roundtrip (h : Nat → Nat → Nat) (leaves : List Nat) (k i : Nat)
    (hlen : leaves.length = 2 ^ k) (hi : i < 2 ^ k) :
    MerkleVerifier.verify h (MerkleTree.buildRoot h leaves) (leaves.getD i 0)
      (MerkleTree.buildAuthPath h leaves i).1 (MerkleTree.buildAuthPath h leaves i).2 = true := by
  have hk : k ≤ leaves.length := by
    rw [hlen]
    exact Nat.le_of_lt (Nat.lt_two_pow k)
  exact merkle_roundtrip_aux h k leaves.length leaves i hlen hk hi

/-- C6 witness: the round trip on the concrete tree over `[3, 1, 4, 1]`
(depth 2) at leaf index 2, with a concrete hash. -/
theorem C6_witness :
    MerkleVerifier.verify (fun a b => a * 1000 + b)
      (MerkleTree.buildRoot (fun a b => a * 1000 + b) [3, 1, 4, 1]) ([3, 1, 4, 1].getD 2 0)
      (MerkleTree.buildAuthPath (fun a b => a * 1000 + b) [3, 1, 4, 1] 2).1
      (MerkleTree.buildAuthPath (fun a b => a * 1000 + b) [3, 1, 4, 1] 2).2 = true :=
  C6_merkle_roundtrip (fun a b => a * 1000 + b) [3, 1, 4, 1] 2 2 (by decide) (by decide)

/-!
## C3 / C2 — the Sharpe trace

`SharpeTrace::generate`, `public_inputs` and `compute_sharpe_sq_scaled`
from `src/prover/src/sharpe_trace.rs`, `basis_points_to_field` from
`src/prover/src/mock_data.rs`, and `compute_constant_merkle_root` from
`src/contracts/stylus/src/mpt.rs`.  A trade record enters the trace only
through its `return_bps` field, so trades are embedded as `List Int`.
-/

/-- `usize::next_power_of_two` (fuelled executable form): least power of two
`≥ n`, with `n ≤ 1 ↦ 1`. -/
def nextPow2Aux : Nat → Nat → Nat
  | 0, _ => 1
  | fuel + 1, n => if n ≤ 1 then 1 else 2 * nextPow2Aux fuel ((n + 1) / 2)

/-- `n.next_power_of_two()`. -/
def nextPow2 (n : Nat) : Nat := nextPow2Aux n n

/-- `basis_points_to_field`: a signed basis-point return as a field element,
negative values via modular negation. -/
def basisPointsToField (bp : Int) : Nat :=
  if 0 ≤ bp then bp.toNat else fneg (-bp).toNat

/-- The per-trade loop of `SharpeTrace::generate`: produces the actual rows
`(ret, ret², cum_ret, cum_sq)` and the final running sums used for padding. -/
def sharpeRowsAux : List Int → Nat → Nat → List (Nat × Nat × Nat × Nat) × Nat × Nat
  | [], cumRet, cumSq => ([], cumRet, cumSq)
  | t :: ts, cumRet, cumSq =>
    let ret := basisPointsToField t
    let retSq := fmul ret ret
    let cumRet2 := fadd cumRet ret
    let cumSq2 := fadd cumSq retSq
    let rest := sharpeRowsAux ts cumRet2 cumSq2
    ((ret, retSq, cumRet2, cumSq2) :: rest.1, rest.2)

/-- The 6-column Sharpe execution trace. -/
structure SharpeTrace where
  colReturn : List Nat
  colReturnSq : List Nat
  colCumulativeReturn : List Nat
  colCumulativeSq : List Nat
  colTradeCount : List Nat
  colDatasetCommitment : List Nat
  len : Nat
  actualTradeCount : Nat

/-- `SharpeTrace::generate`: actual trade rows followed by padding rows
(zero returns, carried-forward cumulative sums) up to the next power of two. -/
def SharpeTrace.generate (trades : List Int) (datasetCommitment : Option Nat) : SharpeTrace :=
  let actualCount := trades.length
  let traceLen := nextPow2 actualCount
  let commitmentVal := datasetCommitment.getD 0
  let r := sharpeRowsAux trades 0 0
  { colReturn := r.1.map (·.1) ++ List.replicate (traceLen - actualCount) 0
    colReturnSq := r.1.map (·.2.1) ++ List.replicate (traceLen - actualCount) 0
    colCumulativeReturn := r.1.map (·.2.2.1) ++ List.replicate (traceLen - actualCount) r.2.1
    colCumulativeSq := r.1.map (·.2.2.2) ++ List.replicate (traceLen - actualCount) r.2.2
    colTradeCount := List.replicate traceLen actualCount
    colDatasetCommitment := List.replicate traceLen commitmentVal
    len := traceLen
    actualTradeCount := actualCount }

/-- `SharpeTrace::compute_sharpe_sq_scaled`: the field-division value
`cum_ret²·S / (N·cum_sq − cum_ret²)` from the final cumulative sums. -/
def SharpeTrace.computeSharpeSqScaled (tr : SharpeTrace) : Nat :=
  let cumRet := tr.colCumulativeReturn.getD (tr.actualTradeCount - 1) 0
  let cumSq := tr.colCumulativeSq.getD (tr.actualTradeCount - 1) 0
  let cumRetSq := fmul cumRet cumRet
  fdiv (fmul cumRetSq SHARPE_SCALE) (fsub (fmul tr.actualTradeCount cumSq) cumRetSq)

/-- `SharpeTrace::public_inputs`:
`[trade_count, total_return, claimed_sharpe_sq_scaled, merkle_root(col5)]`,
with the Merkle tree over the commitment column built by the prover's
`MerkleTree::build` under its hash `h`. -/
def SharpeTrace.publicInputs (h : Nat → Nat → Nat) (tr : SharpeTrace) (claimed : Nat) :
    Fin 4 → Nat
  | 0 => tr.actualTradeCount
  | 1 => tr.colCumulativeReturn.getD (tr.actualTradeCount - 1) 0
  | 2 => claimed
  | 3 => MerkleTree.buildRoot h tr.colDatasetCommitment

/-- `compute_constant_merkle_root` (`mpt.rs`): apply `keccak_hash_two(c, c)`
`log_size` times to the leaf value. -/
def computeConstantMerkleRoot (leafValue logSize : Nat) : Nat :=
  (fun c => keccakHashTwo c c)^[logSize] leafValue

/-- Field division is integer division when it is exact and in range. -/
theorem fdiv_exact (num d : Nat) (hnum : num < P) (hd : d < P) (hd0 : d ≠ 0)
    (hdvd : d ∣ num) : fdiv num d = num / d := by
  obtain ⟨k, hk⟩ := hdvd
  have hkP : num / d < P := lt_of_le_of_lt (Nat.div_le_self _ _) hnum
  apply castFq_inj (fdiv_lt _ _) hkP
  rw [cast_fdiv _ _ hd]
  have hdq : (d : Fq) ≠ 0 := natCast_ne_zero_of_lt hd hd0
  subst hk
  rw [Nat.mul_div_cancel_left k (Nat.pos_of_ne_zero hd0)]
  push_cast
  rw [mul_comm, mul_div_assoc, div_self hdq, mul_one]

/-- C3 counterexample: for returns `[1, 1, 1, 2]` the final sums are
`Σr = 5`, `Σr² = 7` with non-zero variance `4·7 − 25 = 3`, but
`compute_sharpe_sq_scaled` (field division by 3) differs from
`floor(25·10000 / 3) = 83333`. -/
theorem C3_counterexample :
    (SharpeTrace.generate [1, 1, 1, 2] none).colCumulativeReturn.getD 3 0 = 5
      ∧ (SharpeTrace.generate [1, 1, 1, 2] none).colCumulativeSq.getD 3 0 = 7
      ∧ (SharpeTrace.generate [1, 1, 1, 2] none).actualTradeCount = 4
      ∧ (SharpeTrace.generate [1, 1, 1, 2] none).computeSharpeSqScaled
          ≠ 5 * 5 * 10000 / (4 * 7 - 5 * 5) := by
  exact ⟨by decide, by decide, by decide, by decide⟩

/-- C3 (amended): `compute_sharpe_sq_scaled` is the field quotient
`(Σr)²·S · (n·Σr² − (Σr)²)⁻¹ mod p`; it equals the integer
`floor((Σr)²·S / (n·Σr² − (Σr)²))` exactly when the denominator divides the
numerator (with all quantities below `p`), which the repository's datasets
are chosen to satisfy. -/
theorem C3_amended (trades : List Int) (sr q : Nat)
    (hsr : sr = (SharpeTrace.generate trades none).colCumulativeReturn.getD
        ((SharpeTrace.generate trades none).actualTradeCount - 1) 0)
    (hq : q = (SharpeTrace.generate trades none).colCumulativeSq.getD
        ((SharpeTrace.generate trades none).actualTradeCount - 1) 0)
    (hle : sr * sr ≤ trades.length * q)
    (hnq : trades.length * q < P)
    (hnum : sr * sr * SHARPE_SCALE < P)
    (hd0 : trades.length * q - sr * sr ≠ 0)
    (hdvd : (trades.length * q - sr * sr) ∣ sr * sr * SHARPE_SCALE) :
    (SharpeTrace.generate trades none).computeSharpeSqScaled
      = sr * sr * SHARPE_SCALE / (trades.length * q - sr * sr) := by
  have hn : (SharpeTrace.generate trades none).actualTradeCount = trades.length := rfl
  have hsr2 : sr * sr < P := by
    calc sr * sr ≤ sr * sr * SHARPE_SCALE :=
          Nat.le_mul_of_pos_right _ (by norm_num [SHARPE_SCALE])
      _ < P := hnum
  rw [SharpeTrace.computeSharpeSqScaled, ← hsr, ← hq, hn]
  have e1 : fmul sr sr = sr * sr := Nat.mod_eq_of_lt hsr2
  have e2 : fmul trades.length q = trades.length * q := Nat.mod_eq_of_lt hnq
  have e3 : fmul (sr * sr) SHARPE_SCALE = sr * sr * SHARPE_SCALE := Nat.mod_eq_of_lt hnum
  rw [e1, e2, e3]
  have e4 : fsub (trades.length * q) (sr * sr) = trades.length * q - sr * sr := by
    rw [fsub, if_pos hle]
  rw [e4]
  exact fdiv_exact _ _ hnum (by omega) hd0 hdvd

/-- C3 witness: the amended statement at returns `[100, 200]`, where the
division is exact: `Σr = 300`, `Σr² = 50000`, quotient
`90000·10000 / 10000 = 90000`. -/
theorem C3_witness :
    (SharpeTrace.generate [100, 200] none).computeSharpeSqScaled
      = 300 * 300 * SHARPE_SCALE / (2 * 50000 - 300 * 300) := by
  have h := C3_amended [100, 200] 300 50000 (by decide) (by decide)
    (by norm_num) (by norm_num [P]) (by norm_num [SHARPE_SCALE, P])
    (by norm_num) (by norm_num [SHARPE_SCALE])
  simpa using h

/-- C2 (supporting theorem): the prover's `public_inputs[3]` is the root of
`MerkleTree::build` under the prover's hash `h`, while the verifier predicts
the iterated `keccak_hash_two` root; already at `log n = 1` (a two-row
trace with constant commitment `v`) the two disagree whenever
`h(v,v) ≠ keccak_hash_two(v,v)`. -/
theorem C2_roots_mismatch (h : Nat → Nat → Nat) (v claimed : Nat) (t1 t2 : Int)
    (hne : h v v ≠ keccakHashTwo v v) :
    SharpeTrace.publicInputs h (SharpeTrace.generate [t1, t2] (some v)) claimed 3
      ≠ computeConstantMerkleRoot v 1 := by
  have hpi : SharpeTrace.publicInputs h (SharpeTrace.generate [t1, t2] (some v)) claimed 3
      = h v v := by
    simp [SharpeTrace.publicInputs, SharpeTrace.generate, MerkleTree.buildRoot,
      nextPow2, nextPow2Aux, merkleRootAux, nextLevel, List.replicate]
  have hcc : computeConstantMerkleRoot v 1 = keccakHashTwo v v := rfl
  rw [hpi, hcc]
  exact hne

/-- C2 witness: the mismatch instantiated at a concrete hash and `v = 0`
(the hypothesis is discharged by evaluating `keccak_hash_two(0,0) ≠ 0`). -/
theorem C2_witness :
    SharpeTrace.publicInputs (fun _ _ => 0) (SharpeTrace.generate [1, 2] (some 0)) 0 3
      ≠ computeConstantMerkleRoot 0 1 :=
  C2_roots_mismatch (fun _ _ => 0) 0 0 1 2 (by decide)

/-!
## C4 — the Fiat-Shamir channel

`Channel` from `src/contracts/stylus/src/stark/channel.rs` and
`src/prover/src/channel.rs` (the two are line-for-line identical).  Both
compute their digests with `PoseidonHasher::hash_two`; the hash is a
parameter `h` of the embedding.
-/

/-- The Fiat-Shamir channel state: one field element plus a draw counter. -/
structure Channel where
  state : Nat
  counter : Nat

/-- `Channel::new(seed)`: `state = seed`, `counter = 0`. -/
def Channel.new (seed : Nat) : Channel := ⟨seed, 0⟩

/-- `Channel::commit(value)`: `state ← hash(state, value)`, `counter = 0`. -/
def Channel.commit (h : Nat → Nat → Nat) (ch : Channel) (value : Nat) : Channel :=
  ⟨h ch.state value, 0⟩

/-- `Channel::draw_felt()`: `challenge = hash(state, counter)`; increment the
counter; conditionally reduce the challenge below `p`.  Returns the drawn
value and the new channel. -/
def Channel.drawFelt (h : Nat → Nat → Nat) (ch : Channel) : Nat × Channel :=
  (freduce (h ch.state ch.counter), ⟨ch.state, ch.counter + 1⟩)

/-- C4 counterexample: the channel hash `H` is not the Keccak-based digest of
the spec.  The repository's channel hash is pinned by its own circomlib test
vector `hash_two(1,2) = 0x115cc0f5…189a` (tests in `poseidon.rs` on both
sides), so its `draw_felt` at `state = 1, counter = 2` returns that constant
(which is `< p`); a channel whose hash is the spec's keccak digest draws a
different value. -/
theorem C4_counterexample :
    (Channel.drawFelt keccakHashTwo { state := 1, counter := 2 }).1
      ≠ freduce 0x115cc0f5e7d690413df64c6b9662e9cf2a3617f2743245519e19607a4417189a := by
  decide

/-- C4 (amended): the transcript obeys the spec's state machine —
`new(seed)` sets `state = seed, counter = 0`; `commit(x)` hashes the state
with `x` and resets the counter; `draw_felt` returns the (conditionally
reduced) hash of `(state, counter)` and increments the counter — but with
the repository's Poseidon-based `hash_two` as `H`, not the keccak digest;
every drawn value lies in `[0, p)` provided the hash's outputs lie below
`2·p` (true both for the Poseidon hash, whose outputs are field elements,
and for the keccak digest). -/
theorem C4_amended (h : Nat → Nat → Nat) (seed x : Nat) (ch : Channel)
    (hrange : h ch.state ch.counter < 2 * P) :
    Channel.new seed = { state := seed, counter := 0 }
      ∧ Channel.commit h ch x = { state := h ch.state x, counter := 0 }
      ∧ (Channel.drawFelt h ch).1 = freduce (h ch.state ch.counter)
      ∧ (Channel.drawFelt h ch).2 = { state := ch.state, counter := ch.counter + 1 }
      ∧ (Channel.drawFelt h ch).1 < P := by
  exact ⟨rfl, rfl, rfl, rfl, freduce_lt _ hrange⟩

/-- C4 witness: the amended statement at the concrete channel
`state = 3, counter = 7` with the keccak digest as the hash. -/
theorem C4_witness :
    Channel.new 11 = { state := 11, counter := 0 }
      ∧ Channel.commit keccakHashTwo { state := 3, counter := 7 } 5
          = { state := keccakHashTwo 3 5, counter := 0 }
      ∧ (Channel.drawFelt keccakHashTwo { state := 3, counter := 7 }).1
          = freduce (keccakHashTwo 3 7)
      ∧ (Channel.drawFelt keccakHashTwo { state := 3, counter := 7 }).2
          = { state := 3, counter := 8 }
      ∧ (Channel.drawFelt keccakHashTwo { state := 3, counter := 7 }).1 < P :=
  C4_amended keccakHashTwo 11 5 { state := 3, counter := 7 } (by decide)

/-!
## C5 / C10 — proof parsing and the full Sharpe verifier

`parse_sharpe_proof` from `src/contracts/stylus/src/stark/proof.rs`,
`verify_sharpe_stark` / `verify_sharpe_parsed_proof` from
`src/contracts/stylus/src/stark/mod.rs`, and `verify_fri` from
`src/contracts/stylus/src/stark/fri.rs`.

The embedding distinguishes three outcomes: `ok b` (the Rust function
returns `b`), `oob` (a Rust panic: slice index out of bounds, failed
`assert!`, arithmetic underflow of an index computation, or `%` by zero),
and `spin` (the fuel for `draw_queries_into`'s unbounded `while` loop ran
out; the Rust loop would still be running).  Rust accesses that can panic
are modelled with `List.get?` / explicit bound guards; fixed-size buffers
(`alphas[32]`, `derived_indices[64]`, `indices_buf[32]`) become explicit
bound checks on their indices.  The Fiat-Shamir hash of the channel is the
parameter `h`; the seed folding over public inputs uses `keccak_hash_two`
as in the source.
-/

/-- Outcome of a verifier run (see the section comment). -/
inductive VRes where
  | ok (b : Bool)
  | oob
  | spin
deriving DecidableEq

/-- `as_limbs()[0]`: the low 64 bits of a `U256`. -/
def lowLimb (x : Nat) : Nat := x % 2 ^ 64

/-- `Fp::from_u256` in canonical-value semantics: reduction mod `p`. -/
def fpOf (v : Nat) : Nat := v % P

/-- The parsed Sharpe proof (`SharpeStarkProof` in `proof.rs`). -/
structure SharpeStarkProof where
  traceCommitment : Nat
  compositionCommitment : Nat
  friLayerCommitments : List Nat
  traceOodEvals : Fin 6 → Nat
  traceOodEvalsNext : Fin 6 → Nat
  compositionOodEval : Nat
  friFinalPoly : List Nat
  queryIndices : List Nat
  numFriLayers : Nat
  logTraceLen : Nat
  queryValues : List Nat
  queryPaths : List Nat

/-- The `query_paths` element count per query:
`Σ_{layer < num_fri_layers} (log_trace_len + 2 − layer)` (the `for layer`
accumulation loop shared by `parse_sharpe_proof` and `verify_fri`). -/
def pathElementsPerQuery (logTraceLen numFriLayers : Nat) : Nat :=
  (List.range numFriLayers).foldl (fun acc layer => acc + (logTraceLen + 2 - layer)) 0

/-- `parse_sharpe_proof`: bound checks and field parsing, in source order.
`log_trace_len` is read `as u32` (a further truncation of the low limb), and
the layer-count check compares `num_fri_layers as u32`; `num_queries` and
`num_fri_layers` themselves are `usize` (the low limb). -/
def parseSharpeProof (commitments oodValues friFinalPoly queryValues queryPaths
    queryMetadata : List Nat) : Option SharpeStarkProof :=
  if queryMetadata.length < 3 then none
  else
    let numQueries := lowLimb (queryMetadata.getD 0 0)
    let numFriLayers := lowLimb (queryMetadata.getD 1 0)
    let logTraceLen := lowLimb (queryMetadata.getD 2 0) % 2 ^ 32
    if logTraceLen = 0 ∨ 26 < logTraceLen then none
    else if numFriLayers = 0 ∨ logTraceLen + 2 < numFriLayers % 2 ^ 32 then none
    else if numQueries = 0 ∨ 64 < numQueries then none
    else if queryMetadata.length < 3 + numQueries then none
    else
      let queryIndices := (List.range numQueries).map (fun i => lowLimb (queryMetadata.getD (3 + i) 0))
      if commitments.length < 2 + numFriLayers then none
      else if oodValues.length < 13 then none
      else if queryValues.length < numQueries * numFriLayers * 2 then none
      else if queryPaths.length < numQueries * pathElementsPerQuery logTraceLen numFriLayers then none
      else some
        { traceCommitment := fpOf (commitments.getD 0 0)
          compositionCommitment := fpOf (commitments.getD 1 0)
          friLayerCommitments := ((commitments.drop 2).take numFriLayers).map fpOf
          traceOodEvals := fun i => fpOf (oodValues.getD i.val 0)
          traceOodEvalsNext := fun i => fpOf (oodValues.getD (6 + i.val) 0)
          compositionOodEval := fpOf (oodValues.getD 12 0)
          friFinalPoly := friFinalPoly.map fpOf
          queryIndices := queryIndices
          numFriLayers := numFriLayers
          logTraceLen := logTraceLen
          queryValues := queryValues.map fpOf
          queryPaths := queryPaths.map fpOf }

/-- `GENERATOR_2_28` (`domain.rs`, both crates): the primitive `2^28`-th
root of unity (limbs `[0x9bd61b6e725b19f0, 0x402d111e41112ed4, 0x00e0a7eb8ef62abc, 0x2a3c09f0a58a7e85]`). -/
def GENERATOR_2_28 : Nat :=
  0x2a3c09f0a58a7e8500e0a7eb8ef62abc402d111e41112ed49bd61b6e725b19f0

/-- `domain_generator(log_size) = GENERATOR_2_28^(2^(28 − log_size))`.
The source `assert!(log_size <= 28)` is enforced by the callers below. -/
def domainGeneratorT (logSize : Nat) : Nat := fpow GENERATOR_2_28 (2 ^ (28 - logSize))

/-- `evaluate_at(gen, index) = gen^index`. -/
def evaluateAt (gen idx : Nat) : Nat := fpow gen idx

/-- `evaluate_polynomial` (Horner, `fri.rs`); empty coefficients give `0`. -/
def evaluatePolynomial (coeffs : List Nat) (x : Nat) : Nat :=
  coeffs.foldr (fun c acc => fadd (fmul acc x) c) 0

/-- The `for i in 0..num_layers { commit(root[i]); alphas[i] = draw_felt() }`
loop of `verify_fri`, over the first `num_layers` roots. -/
def commitRootsDrawAlphas (h : Nat → Nat → Nat) (ch : Channel) :
    List Nat → List Nat × Channel
  | [] => ([], ch)
  | r :: rs =>
    let ch1 := Channel.commit h ch r
    let d := Channel.drawFelt h ch1
    let rest := commitRootsDrawAlphas h d.2 rs
    (d.1 :: rest.1, rest.2)

/-- The `while written < count` loop of `Channel::draw_queries_into`:
draw, mask with `domain_size − 1`, keep if unseen.  `none` models the loop
still running when the fuel is exhausted. -/
def drawQueriesIntoAux (h : Nat → Nat → Nat) :
    Nat → Channel → List Nat → Nat → Nat → Option (List Nat × Channel)
  | fuel, ch, acc, count, ds =>
    if count ≤ acc.length then some (acc, ch)
    else
      match fuel with
      | 0 => none
      | fuel + 1 =>
        let d := Channel.drawFelt h ch
        let index := d.1 &&& (ds - 1)
        if index ∈ acc then drawQueriesIntoAux h fuel d.2 acc count ds
        else drawQueriesIntoAux h fuel d.2 (acc ++ [index]) count ds

/-- `Channel::draw_queries_into` with `count = min(count, output.len() = 64)`. -/
def drawQueriesInto (h : Nat → Nat → Nat) (fuel : Nat) (ch : Channel)
    (count domainSize : Nat) : Option (List Nat × Channel) :=
  drawQueriesIntoAux h fuel ch [] (min count 64) domainSize

/-- The `for i in 0..num_queries` index comparison of `verify_fri`:
first element of `derived` drives the loop; running out of `query_indices`
first is the Rust panic `query_indices[i]` out of bounds. -/
def checkIndices : List Nat → List Nat → Option Bool
  | [], _ => some true
  | d :: ds, qs =>
    match qs with
    | [] => none
    | q :: qs' => if d ≠ q then some false else checkIndices ds qs'

/-- The `path_elements_per_query` accumulation of `verify_fri`:
`Σ_{layer < num_layers} (log_domain_size − layer)`. -/
def friPathPerQuery (logDomainSize numLayers : Nat) : Nat :=
  (List.range numLayers).foldl (fun acc layer => acc + (logDomainSize - layer)) 0

/-- `FriParams` with `blowup_factor = 4`: `log_domain_size = log_trace_len + 2`. -/
structure FriParams where
  logDomainSize : Nat
  numLayers : Nat
  numQueries : Nat

/-- The inner `for layer in 0..num_layers` loop of a single FRI query:
Merkle check of `f(x)`, fold, cross-layer consistency, index halving.
Returns `none` on a panic, `some none` on `return false`, and
`some (some (query_idx, last_folded))` when the layer loop completes. -/
def friQueryLayerLoop (h : Nat → Nat → Nat)
    (alphas layerGens layerCommitments queryValues queryAuthPaths : List Nat)
    (logDomainSize valueOffset : Nat) :
    Nat → Nat → Nat → Nat → Nat → Option (Option (Nat × Nat))
  | 0, _, idx, _, last => some (some (idx, last))
  | rem + 1, layer, idx, cursor, last =>
    let llog := logDomainSize - layer
    let halfDomain := 2 ^ llog / 2
    let depth := llog
    let pairOffset := valueOffset + layer * 2
    match queryValues.get? pairOffset, queryValues.get? (pairOffset + 1) with
    | some fx, some fNegX =>
      if queryAuthPaths.length < cursor + depth then none
      else if 32 < depth then none
      else
        let pathSlice := (queryAuthPaths.drop cursor).take depth
        let indicesBuf := (List.range depth).map (fun k => decide ((idx >>> k) &&& 1 = 1))
        match layerCommitments.get? layer with
        | none => none
        | some root =>
          if ¬ MerkleVerifier.verify h root fx pathSlice indicesBuf then some none
          else
            match layerGens.get? layer, alphas.get? layer with
            | some gen, some alpha =>
              let x := evaluateAt gen idx
              let folded := friFold fx fNegX alpha x
              if rem ≠ 0 then
                match queryValues.get? (valueOffset + (layer + 1) * 2) with
                | none => none
                | some nextFx =>
                  if folded ≠ nextFx then some none
                  else if halfDomain = 0 then none
                  else friQueryLayerLoop h alphas layerGens layerCommitments queryValues
                    queryAuthPaths logDomainSize valueOffset rem (layer + 1) (idx % halfDomain)
                    (cursor + depth) last
              else
                if halfDomain = 0 then none
                else friQueryLayerLoop h alphas layerGens layerCommitments queryValues
                  queryAuthPaths logDomainSize valueOffset rem (layer + 1) (idx % halfDomain)
                  (cursor + depth) folded
            | _, _ => none
    | _, _ => none

/-- The outer `for q in 0..num_queries` loop of `verify_fri`, including the
final-polynomial check of each query. -/
def friQueries (h : Nat → Nat → Nat)
    (alphas layerGens layerCommitments queryValues queryAuthPaths finalPolyCoeffs
      queryIndices : List Nat) (logDomainSize numLayers pathPerQuery finalGen : Nat) :
    Nat → Nat → Option Bool
  | 0, _ => some true
  | rem + 1, q =>
    match queryIndices.get? q with
    | none => none
    | some idx0 =>
      match friQueryLayerLoop h alphas layerGens layerCommitments queryValues queryAuthPaths
        logDomainSize (q * (numLayers * 2)) numLayers 0 idx0 (q * pathPerQuery) 0 with
      | none => none
      | some none => some false
      | some (some st) =>
        let finalX := evaluateAt finalGen st.1
        let expected := evaluatePolynomial finalPolyCoeffs finalX
        if st.2 ≠ expected then some false
        else friQueries h alphas layerGens layerCommitments queryValues queryAuthPaths
          finalPolyCoeffs queryIndices logDomainSize numLayers pathPerQuery finalGen rem (q + 1)

/-- `verify_fri` (`fri.rs`). -/
def verifyFri (h : Nat → Nat → Nat) (fuel : Nat) (ch : Channel)
    (layerCommitments queryValues queryAuthPaths queryIndices finalPolyCoeffs : List Nat)
    (params : FriParams) : VRes :=
  let numLayers := params.numLayers
  let numQueries := params.numQueries
  if layerCommitments.length < numLayers then VRes.oob
  else if 32 < numLayers then VRes.oob
  else
    let a := commitRootsDrawAlphas h ch (layerCommitments.take numLayers)
    let ch2 := finalPolyCoeffs.foldl (Channel.commit h) a.2
    let ldeDomainSize := 2 ^ params.logDomainSize
    match drawQueriesInto h fuel ch2 numQueries ldeDomainSize with
    | none => VRes.spin
    | some dr =>
      if dr.1.length ≠ numQueries then VRes.ok false
      else
        match checkIndices dr.1 queryIndices with
        | none => VRes.oob
        | some false => VRes.ok false
        | some true =>
          if params.logDomainSize < numLayers then VRes.oob
          else if 28 < params.logDomainSize then VRes.oob
          else
            let pathPerQuery := friPathPerQuery params.logDomainSize numLayers
            let layerGens := (List.range numLayers).map
              (fun layer => domainGeneratorT (params.logDomainSize - layer))
            let finalGen := domainGeneratorT (params.logDomainSize - numLayers)
            match friQueries h a.1 layerGens (layerCommitments.take numLayers) queryValues
              queryAuthPaths finalPolyCoeffs queryIndices params.logDomainSize numLayers
              pathPerQuery finalGen numQueries 0 with
            | none => VRes.oob
            | some b => VRes.ok b

/-- Draw `n` consecutive challenges from the channel. -/
def drawFelts (h : Nat → Nat → Nat) (ch : Channel) : Nat → List Nat × Channel
  | 0 => ([], ch)
  | n + 1 =>
    let d := Channel.drawFelt h ch
    let rest := drawFelts h d.2 n
    (d.1 :: rest.1, rest.2)

/-- `verify_sharpe_parsed_proof` (`mod.rs`): seed the channel with the
keccak fold of the public inputs, commit the trace root, draw `z`, check
the recomposed AIR value at `z`, check the composition root against FRI
layer 0, then run `verify_fri`. -/
def verifySharpeParsedProof (h : Nat → Nat → Nat) (fuel : Nat)
    (proof : SharpeStarkProof) (pubs : Fin 4 → Nat) : VRes :=
  let logTraceLen := proof.logTraceLen
  let traceLen := 2 ^ logTraceLen
  let seed := keccakHashTwo (keccakHashTwo (keccakHashTwo (pubs 0) (pubs 1)) (pubs 2)) (pubs 3)
  let ch := Channel.commit h (Channel.new seed) proof.traceCommitment
  let dz := Channel.drawFelt h ch
  let z := dz.1
  if 28 < logTraceLen then VRes.oob
  else
    let traceGen := domainGeneratorT logTraceLen
    let transitionEvals := evaluateTransition proof.traceOodEvals proof.traceOodEvalsNext
    let zerofier := transitionZerofierAt z traceLen traceGen
    let tqs : Fin 5 → Nat := fun i => fdiv (transitionEvals i) zerofier
    let traceDomainLast := fpow traceGen (traceLen - 1)
    let boundaryQuotients := evaluateBoundaryQuotients proof.traceOodEvals z 1 traceDomainLast pubs
    let da := drawFelts h dz.2 9
    let alphas := da.1
    let comp5 := (List.range 5).foldl
      (fun c i => fadd c (fmul (alphas.getD i 0) (tqs ⟨i % 5, Nat.mod_lt i (by norm_num)⟩))) 0
    let compositionAtZ := (List.range 4).foldl
      (fun c i => fadd c (fmul (alphas.getD (5 + i) 0)
        (boundaryQuotients ⟨i % 4, Nat.mod_lt i (by norm_num)⟩))) comp5
    if compositionAtZ ≠ proof.compositionOodEval then VRes.ok false
    else
      let ch2 := Channel.commit h da.2 proof.compositionCommitment
      if proof.friLayerCommitments.isEmpty
          ∨ proof.compositionCommitment ≠ proof.friLayerCommitments.headD 0 then VRes.ok false
      else
        let friParams : FriParams :=
          { logDomainSize := logTraceLen + 2
            numLayers := proof.numFriLayers
            numQueries := proof.queryIndices.length }
        verifyFri h fuel ch2 proof.friLayerCommitments proof.queryValues proof.queryPaths
          proof.queryIndices proof.friFinalPoly friParams

/-- `verify_sharpe_stark` (`mod.rs`): parse (reject on `None`), require four
public inputs, lift them with `Fp::from_u256`, and verify. -/
def verifySharpeStark (h : Nat → Nat → Nat) (fuel : Nat)
    (publicInputs commitments oodValues friFinalPoly queryValues queryPaths
      queryMetadata : List Nat) : VRes :=
  match parseSharpeProof commitments oodValues friFinalPoly queryValues queryPaths
    queryMetadata with
  | none => VRes.ok false
  | some proof =>
    if publicInputs.length < 4 then VRes.ok false
    else verifySharpeParsedProof h fuel proof (fun i => fpOf (publicInputs.getD i.val 0))

theorem parse_some_bounds
    (commitments oodValues friFinalPoly queryValues queryPaths queryMetadata : List Nat)
    (proof : SharpeStarkProof)
    (h : parseSharpeProof commitments oodValues friFinalPoly queryValues queryPaths queryMetadata
        = some proof) :
    3 ≤ queryMetadata.length
      ∧ proof.logTraceLen = lowLimb (queryMetadata.getD 2 0) % 2 ^ 32
      ∧ proof.numFriLayers = lowLimb (queryMetadata.getD 1 0)
      ∧ proof.queryIndices.length = lowLimb (queryMetadata.getD 0 0)
      ∧ 1 ≤ proof.logTraceLen ∧ proof.logTraceLen ≤ 26
      ∧ 1 ≤ proof.numFriLayers ∧ proof.numFriLayers % 2 ^ 32 ≤ proof.logTraceLen + 2
      ∧ 1 ≤ proof.queryIndices.length ∧ proof.queryIndices.length ≤ 64
      ∧ 3 + proof.queryIndices.length ≤ queryMetadata.length
      ∧ 2 + proof.numFriLayers ≤ commitments.length
      ∧ 13 ≤ oodValues.length
      ∧ proof.queryIndices.length * proof.numFriLayers * 2 ≤ queryValues.length
      ∧ proof.queryIndices.length * pathElementsPerQuery proof.logTraceLen proof.numFriLayers
          ≤ queryPaths.length
      ∧ proof.friLayerCommitments.length = proof.numFriLayers
      ∧ proof.queryValues.length = queryValues.length
      ∧ proof.queryPaths.length = queryPaths.length := by
  simp only [parseSharpeProof] at h
  split_ifs at h with h1 h2 h3 h4 h5 h6 h7 h8 h9
  injection h with h
  subst h
  push_neg at h1 h2 h3 h4 h5 h6 h7 h8 h9
  refine ⟨by omega, rfl, rfl, ?_, ?_, ?_, ?_, ?_, ?_, ?_, ?_, ?_, ?_, ?_, ?_, ?_, ?_, ?_⟩
  all_goals try simp only [List.length_map, List.length_range, List.length_take, List.length_drop]
  all_goals omega

/-- C5: `verify_sharpe_stark` returns `false` whenever any of the parse-time
bound checks is violated, with the declared counts read exactly as the code
reads them: `num_queries` and `num_fri_layers` are the low 64 bits of the
metadata words (`as_limbs()[0]` as `usize`), `log_trace_len` is further
truncated `as u32`, and the layer check compares `num_fri_layers as u32`.
The violations: `log_trace_len ∉ [1, 26]`,
`num_fri_layers = 0` or `(num_fri_layers as u32) > log_trace_len + 2`,
`num_queries ∉ [1, 64]`, fewer than 13 OOD values, too few query values /
query path elements / metadata entries / commitments, or fewer than 4
public inputs. -/
theorem C5_bound_checks (h : Nat → Nat → Nat) (fuel : Nat)
    (pubs comms ood ffp qv qp qm : List Nat)
    (hviol : qm.length < 3
      ∨ lowLimb (qm.getD 2 0) % 2 ^ 32 = 0 ∨ 26 < lowLimb (qm.getD 2 0) % 2 ^ 32
      ∨ lowLimb (qm.getD 1 0) = 0
      ∨ lowLimb (qm.getD 2 0) % 2 ^ 32 + 2 < lowLimb (qm.getD 1 0) % 2 ^ 32
      ∨ lowLimb (qm.getD 0 0) = 0 ∨ 64 < lowLimb (qm.getD 0 0)
      ∨ ood.length < 13
      ∨ qv.length < lowLimb (qm.getD 0 0) * lowLimb (qm.getD 1 0) * 2
      ∨ qp.length < lowLimb (qm.getD 0 0)
          * pathElementsPerQuery (lowLimb (qm.getD 2 0) % 2 ^ 32) (lowLimb (qm.getD 1 0))
      ∨ qm.length < 3 + lowLimb (qm.getD 0 0)
      ∨ comms.length < 2 + lowLimb (qm.getD 1 0)
      ∨ pubs.length < 4) :
    verifySharpeStark h fuel pubs comms ood ffp qv qp qm = VRes.ok false := by
  cases hp : parseSharpeProof comms ood ffp qv qp qm with
  | none => simp only [verifySharpeStark, hp]
  | some proof =>
    obtain ⟨b1, hT, hL, hQ, b2, b3, b4, b5, b6, b7, b8, b9, b10, b11, b12, b13, b14, b15⟩ :=
      parse_some_bounds comms ood ffp qv qp qm proof hp
    rw [← hT, ← hL, ← hQ] at hviol
    have hpubs : pubs.length < 4 := by
      rcases hviol with hv | hv | hv | hv | hv | hv | hv | hv | hv | hv | hv | hv | hv
      all_goals first
        | exact hv
        | omega
    simp only [verifySharpeStark, hp, if_pos hpubs]

/-- C5 witness: on entirely empty input arrays (metadata shorter than 3) the
verifier returns `false`. -/
theorem C5_witness :
    verifySharpeStark (fun _ _ => 0) 0 [] [] [] [] [] [] [] = VRes.ok false :=
  C5_bound_checks (fun _ _ => 0) 0 [] [] [] [] [] [] [] (Or.inl (by decide))

theorem checkIndices_ne_none :
    ∀ (ds qs : List Nat), ds.length ≤ qs.length → checkIndices ds qs ≠ none
  | [], qs, _ => by simp [checkIndices]
  | d :: ds, [], hle => by simp at hle
  | d :: ds, q :: qs, hle => by
    rw [checkIndices]
    split
    · simp
    · exact checkIndices_ne_none ds qs (by simpa using hle)

/-- The path elements still to be consumed from layer `layer` on, for `rem`
more layers. -/
def friPathFrom (logD layer rem : Nat) : Nat :=
  match rem with
  | 0 => 0
  | rem + 1 => (logD - layer) + friPathFrom logD (layer + 1) rem

theorem friPathFrom_snoc (logD : Nat) :
    ∀ rem layer, friPathFrom logD layer (rem + 1)
      = friPathFrom logD layer rem + (logD - (layer + rem)) := by
  intro rem
  induction rem with
  | zero => intro layer; simp [friPathFrom]
  | succ r ih =>
    intro layer
    rw [friPathFrom, ih (layer + 1), friPathFrom]
    omega

theorem friPathFrom_eq_perQuery (logD : Nat) :
    ∀ n, friPathFrom logD 0 n = friPathPerQuery logD n := by
  intro n
  induction n with
  | zero => simp [friPathFrom, friPathPerQuery]
  | succ n ih =>
    rw [friPathFrom_snoc, ih]
    simp only [friPathPerQuery, List.range_succ, List.foldl_append, List.foldl_cons,
      List.foldl_nil, Nat.zero_add]

theorem friQueryLayerLoop_ne_none (h : Nat → Nat → Nat)
    (alphas layerGens layerCommitments queryValues queryAuthPaths : List Nat)
    (logD valueOffset numLayers : Nat)
    (halphas : numLayers ≤ alphas.length) (hgens : numLayers ≤ layerGens.length)
    (hcomm : numLayers ≤ layerCommitments.length)
    (hlogD : numLayers ≤ logD) (h28 : logD ≤ 28)
    (hqv : valueOffset + numLayers * 2 ≤ queryValues.length) :
    ∀ rem layer idx cursor last, layer + rem = numLayers →
      cursor + friPathFrom logD layer rem ≤ queryAuthPaths.length →
      friQueryLayerLoop h alphas layerGens layerCommitments queryValues queryAuthPaths
        logD valueOffset rem layer idx cursor last ≠ none := by
  intro rem
  induction rem with
  | zero =>
    intro layer idx cursor last hlayer hcur
    simp [friQueryLayerLoop]
  | succ rem ih =>
    intro layer idx cursor last hlayer hcur
    have hlayerlt : layer < numLayers := by omega
    have hv1 : valueOffset + layer * 2 < queryValues.length := by omega
    have hv2 : valueOffset + layer * 2 + 1 < queryValues.length := by omega
    have hcl : layer < layerCommitments.length := by omega
    have hgl : layer < layerGens.length := by omega
    have hal : layer < alphas.length := by omega
    have hpath : friPathFrom logD layer (rem + 1)
        = (logD - layer) + friPathFrom logD (layer + 1) rem := rfl
    rw [friQueryLayerLoop]
    rw [List.get?_eq_get hv1, List.get?_eq_get hv2]
    simp only []
    rw [if_neg (by omega), if_neg (by omega)]
    rw [List.get?_eq_get hcl]
    simp only []
    split
    · simp
    · rw [List.get?_eq_get hgl, List.get?_eq_get hal]
      simp only []
      split
      · -- interior layer: rem ≠ 0
        rename_i hrem
        have hv3 : valueOffset + (layer + 1) * 2 < queryValues.length := by omega
        rw [List.get?_eq_get hv3]
        simp only []
        split
        · simp
        · rw [if_neg (by
            have : 1 ≤ logD - layer := by omega
            have h2 : 2 ≤ 2 ^ (logD - layer) := by
              calc 2 = 2 ^ 1 := by norm_num
                _ ≤ 2 ^ (logD - layer) := Nat.pow_le_pow_right (by norm_num) this
            omega)]
          exact ih (layer + 1) _ _ _ (by omega) (by omega)
      · rw [if_neg (by
          have : 1 ≤ logD - layer := by omega
          have h2 : 2 ≤ 2 ^ (logD - layer) := by
            calc 2 = 2 ^ 1 := by norm_num
              _ ≤ 2 ^ (logD - layer) := Nat.pow_le_pow_right (by norm_num) this
          omega)]
        exact ih (layer + 1) _ _ _ (by omega) (by omega)

theorem commitRootsDrawAlphas_length (h : Nat → Nat → Nat) :
    ∀ (rs : List Nat) (ch : Channel), (commitRootsDrawAlphas h ch rs).1.length = rs.length
  | [], _ => rfl
  | r :: rs, ch => by
    rw [commitRootsDrawAlphas]
    simpa using commitRootsDrawAlphas_length h rs _

theorem friQueries_ne_none (h : Nat → Nat → Nat)
    (alphas layerGens layerCommitments queryValues queryAuthPaths finalPolyCoeffs
      queryIndices : List Nat) (logD numLayers finalGen : Nat)
    (halphas : numLayers ≤ alphas.length) (hgens : numLayers ≤ layerGens.length)
    (hcomm : numLayers ≤ layerCommitments.length)
    (hlogD : numLayers ≤ logD) (h28 : logD ≤ 28) :
    ∀ rem q, q + rem ≤ queryIndices.length →
      (q + rem) * (numLayers * 2) ≤ queryValues.length →
      (q + rem) * friPathPerQuery logD numLayers ≤ queryAuthPaths.length →
      friQueries h alphas layerGens layerCommitments queryValues queryAuthPaths
        finalPolyCoeffs queryIndices logD numLayers (friPathPerQuery logD numLayers)
        finalGen rem q ≠ none := by
  intro rem
  induction rem with
  | zero => intro q _ _ _; simp [friQueries]
  | succ rem ih =>
    intro q hqi hqv hqp
    have hvb : q * (numLayers * 2) + numLayers * 2 ≤ queryValues.length := by
      calc q * (numLayers * 2) + numLayers * 2 = (q + 1) * (numLayers * 2) := by ring
        _ ≤ (q + (rem + 1)) * (numLayers * 2) := Nat.mul_le_mul_right _ (by omega)
        _ ≤ queryValues.length := hqv
    have hpb : q * friPathPerQuery logD numLayers + friPathPerQuery logD numLayers
        ≤ queryAuthPaths.length := by
      calc q * friPathPerQuery logD numLayers + friPathPerQuery logD numLayers
          = (q + 1) * friPathPerQuery logD numLayers := by ring
        _ ≤ (q + (rem + 1)) * friPathPerQuery logD numLayers :=
            Nat.mul_le_mul_right _ (by omega)
        _ ≤ queryAuthPaths.length := hqp
    rw [friQueries]
    split
    · rename_i heq
      exact absurd (List.get?_eq_none.mp heq) (by omega)
    · rename_i idx0 heq
      split
      · rename_i hloop
        exact absurd hloop
          (friQueryLayerLoop_ne_none h alphas layerGens layerCommitments queryValues
            queryAuthPaths logD (q * (numLayers * 2)) numLayers halphas hgens hcomm hlogD h28
            hvb numLayers 0 idx0 (q * friPathPerQuery logD numLayers) 0 (by omega)
            (by rw [friPathFrom_eq_perQuery]; exact hpb))
      · rename_i hloop
        simp
      · rename_i st hloop
        dsimp only
        split
        · simp
        · exact ih (q + 1) (by omega)
            (by calc (q + 1 + rem) * (numLayers * 2)
                  ≤ (q + (rem + 1)) * (numLayers * 2) := Nat.mul_le_mul_right _ (by omega)
                _ ≤ queryValues.length := hqv)
            (by calc (q + 1 + rem) * friPathPerQuery logD numLayers
                  ≤ (q + (rem + 1)) * friPathPerQuery logD numLayers :=
                    Nat.mul_le_mul_right _ (by omega)
                _ ≤ queryAuthPaths.length := hqp)

theorem verifyFri_ne_oob (h : Nat → Nat → Nat) (fuel : Nat) (ch : Channel)
    (layerCommitments queryValues queryAuthPaths queryIndices finalPolyCoeffs : List Nat)
    (params : FriParams)
    (h1 : params.numLayers ≤ layerCommitments.length)
    (h2 : params.numQueries = queryIndices.length)
    (h3 : params.numLayers ≤ params.logDomainSize)
    (h4 : params.logDomainSize ≤ 28)
    (h5 : params.numQueries * (params.numLayers * 2) ≤ queryValues.length)
    (h6 : params.numQueries * friPathPerQuery params.logDomainSize params.numLayers
        ≤ queryAuthPaths.length) :
    verifyFri h fuel ch layerCommitments queryValues queryAuthPaths queryIndices
      finalPolyCoeffs params ≠ VRes.oob := by
  simp only [verifyFri]
  rw [if_neg (by omega), if_neg (by omega)]
  split
  · simp
  · rename_i dr hdr
    split
    · simp
    · rename_i hlen
      split
      · rename_i hchk
        exact absurd hchk (checkIndices_ne_none _ _ (by omega))
      · simp
      · rw [if_neg (by omega), if_neg (by omega)]
        split
        · rename_i hfq
          refine absurd hfq (friQueries_ne_none h _ _ _ _ _ _ _ _ _ _ ?_ ?_ ?_ h3 h4
            params.numQueries 0 (by omega) ?_ ?_)
          · rw [commitRootsDrawAlphas_length]
            simp only [List.length_take]
            omega
          · simp only [List.length_map, List.length_range]
            exact Nat.le_refl _
          · simp only [List.length_take]
            omega
          · simpa using h5
          · simpa using h6
        · simp

theorem verifySharpeParsedProof_ne_oob (h : Nat → Nat → Nat) (fuel : Nat)
    (proof : SharpeStarkProof) (pubs : Fin 4 → Nat)
    (hT : proof.logTraceLen ≤ 26)
    (hcomm : proof.numFriLayers ≤ proof.friLayerCommitments.length)
    (hL : proof.numFriLayers ≤ proof.logTraceLen + 2)
    (hqv : proof.queryIndices.length * (proof.numFriLayers * 2) ≤ proof.queryValues.length)
    (hqp : proof.queryIndices.length
        * friPathPerQuery (proof.logTraceLen + 2) proof.numFriLayers
        ≤ proof.queryPaths.length) :
    verifySharpeParsedProof h fuel proof pubs ≠ VRes.oob := by
  simp only [verifySharpeParsedProof]
  rw [if_neg (by omega)]
  split
  · simp
  · split
    · simp
    · exact verifyFri_ne_oob h fuel _ _ _ _ _ _ _ hcomm rfl hL
        (show proof.logTraceLen + 2 ≤ 28 by omega) hqv hqp

/-- C10: (amended) `verify_sharpe_stark` never performs an out-of-bounds
access, panic, or division fault on any input whose declared
`num_fri_layers` word (the low limb of `query_metadata[1]`) fits in `u32`:
under that proviso the parse-time bound checks keep every index used in
`verify_sharpe_parsed_proof` and `verify_fri` in bounds.  The proviso is
necessary: the source checks only `num_fri_layers as u32`, so a declared
layer count `≥ 2^32` with a small truncation (and the `≥ 2 + 2^32`
commitment words it demands) reaches `verify_fri` with `num_layers > 32`
and overruns the fixed `alphas[32]` buffer.  The original claim's "always
returns a boolean" is false independently of array sizes:
`draw_queries_into` need not terminate, see the divergence
counterexample. -/
theorem C10_amended (h : Nat → Nat → Nat) (fuel : Nat)
    (pubs comms ood ffp qv qp qm : List Nat)
    (hfit : lowLimb (qm.getD 1 0) < 2 ^ 32) :
    verifySharpeStark h fuel pubs comms ood ffp qv qp qm ≠ VRes.oob := by
  cases hp : parseSharpeProof comms ood ffp qv qp qm with
  | none => simp [verifySharpeStark, hp]
  | some proof =>
    obtain ⟨-, -, hNL, -, -, hT, -, hL, -, -, -, hcm, -, hqv, hqp, hflc, hqvl, hqpl⟩ :=
      parse_some_bounds comms ood ffp qv qp qm proof hp
    have hLfull : proof.numFriLayers ≤ proof.logTraceLen + 2 := by
      have hlt : proof.numFriLayers < 2 ^ 32 := by rw [hNL]; exact hfit
      omega
    simp only [verifySharpeStark, hp]
    split
    · simp
    · refine verifySharpeParsedProof_ne_oob h fuel proof _ hT (by omega) hLfull ?_ ?_
      · rw [hqvl, ← Nat.mul_assoc]
        exact hqv
      · rw [hqpl]
        exact hqp

theorem C10_witness :
    lowLimb (([] : List Nat).getD 1 0) < 2 ^ 32
      ∧ verifySharpeStark (fun _ _ => 0) 0 [] [] [] [] [] [] [] ≠ VRes.oob :=
  ⟨by decide,
    C10_amended (fun _ _ => 0) 0 [] [] [] [] [] [] [] (by decide)⟩

theorem nodup_lt_length_le (l : List Nat) (ds : Nat) (hnd : l.Nodup)
    (hlt : ∀ x ∈ l, x < ds) : l.length ≤ ds := by
  classical
  have h1 : l.toFinset.card = l.length := List.toFinset_card_of_nodup hnd
  have h2 : l.toFinset ⊆ Finset.range ds := by
    intro x hx
    simp only [List.mem_toFinset] at hx
    exact Finset.mem_range.mpr (hlt x hx)
  have h3 := Finset.card_le_card h2
  rw [h1, Finset.card_range] at h3
  exact h3

theorem drawQueriesIntoAux_spin (h : Nat → Nat → Nat) :
    ∀ (fuel : Nat) (ch : Channel) (acc : List Nat) (count ds : Nat),
      acc.Nodup → (∀ x ∈ acc, x < ds) → 0 < ds → ds < count →
      drawQueriesIntoAux h fuel ch acc count ds = none := by
  intro fuel
  induction fuel with
  | zero =>
    intro ch acc count ds hnd hlt hds hcnt
    rw [drawQueriesIntoAux]
    rw [if_neg (by have := nodup_lt_length_le acc ds hnd hlt; omega)]
  | succ fuel ih =>
    intro ch acc count ds hnd hlt hds hcnt
    rw [drawQueriesIntoAux]
    rw [if_neg (by have := nodup_lt_length_le acc ds hnd hlt; omega)]
    have hidx : ((Channel.drawFelt h ch).1 &&& (ds - 1)) < ds := by
      have := Nat.and_le_right (n := (Channel.drawFelt h ch).1) (m := ds - 1)
      omega
    dsimp only
    split
    · exact ih _ acc count ds hnd hlt hds hcnt
    · rename_i hmem
      refine ih _ _ count ds ?_ ?_ hds hcnt
      · simp [List.nodup_append, hnd, hmem]
      · intro x hx
        rcases List.mem_append.mp hx with hx | hx
        · exact hlt x hx
        · rw [List.mem_singleton] at hx
          subst hx
          exact hidx

theorem verifyFri_spin (h : Nat → Nat → Nat) (fuel : Nat) (ch : Channel)
    (layerCommitments queryValues queryAuthPaths queryIndices finalPolyCoeffs : List Nat)
    (params : FriParams)
    (h1 : params.numLayers ≤ layerCommitments.length) (h2 : params.numLayers ≤ 32)
    (h3 : 2 ^ params.logDomainSize < params.numQueries) (h4 : params.numQueries ≤ 64) :
    verifyFri h fuel ch layerCommitments queryValues queryAuthPaths queryIndices
      finalPolyCoeffs params = VRes.spin := by
  simp only [verifyFri]
  rw [if_neg (by omega), if_neg (by omega)]
  rw [drawQueriesInto, drawQueriesIntoAux_spin h fuel _ [] (min params.numQueries 64)
    (2 ^ params.logDomainSize) List.nodup_nil (by simp) (Nat.pos_pow_of_pos _ (by norm_num))
    (by omega)]

theorem fmul_zero_right (a : Nat) : fmul a 0 = 0 := by simp [fmul]

theorem fmul_zero_left (a : Nat) : fmul 0 a = 0 := by simp [fmul]

theorem fsub_zero_zero : fsub 0 0 = 0 := rfl

theorem fadd_zero_zero : fadd 0 0 = 0 := rfl

theorem fdiv_zero_left (b : Nat) : fdiv 0 b = 0 := by simp [fdiv, fmul]

theorem verifySharpeParsedProof_spin (h : Nat → Nat → Nat) (fuel : Nat)
    (proof : SharpeStarkProof) (pubs : Fin 4 → Nat)
    (hood : ∀ i, proof.traceOodEvals i = 0)
    (hoodN : ∀ i, proof.traceOodEvalsNext i = 0)
    (hpubs : ∀ i, pubs i = 0)
    (hcomp : proof.compositionOodEval = 0)
    (hlog : proof.logTraceLen = 1)
    (hfl : proof.friLayerCommitments = [proof.compositionCommitment])
    (hnl : proof.numFriLayers = 1)
    (hq : proof.queryIndices.length = 9) :
    verifySharpeParsedProof h fuel proof pubs = VRes.spin := by
  have het : ∀ j : Fin 5, evaluateTransition proof.traceOodEvals proof.traceOodEvalsNext j = 0 := by
    intro j
    rcases j with ⟨jv, hj⟩
    interval_cases jv <;>
      · dsimp only [evaluateTransition]
        try simp [hood, hoodN, fadd, fsub, fmul]
  have heb : ∀ z last (j : Fin 4),
      evaluateBoundaryQuotients proof.traceOodEvals z 1 last pubs j = 0 := by
    intro z last j
    rcases j with ⟨jv, hj⟩
    interval_cases jv <;>
      · dsimp only [evaluateBoundaryQuotients]
        try simp [hood, hpubs, fmul_zero_left, fmul_zero_right, fsub_zero_zero, fdiv_zero_left]
  simp only [verifySharpeParsedProof, hlog]
  rw [if_neg (by norm_num)]
  rw [show List.range 5 = [0, 1, 2, 3, 4] from rfl, show List.range 4 = [0, 1, 2, 3] from rfl]
  simp only [List.foldl_cons, List.foldl_nil, het, heb, hcomp, fmul_zero_right,
    fadd_zero_zero, fdiv_zero_left, ne_eq, not_true_eq_false, if_false]
  rw [hfl]
  simp only [List.isEmpty_cons, List.headD_cons, not_true_eq_false, or_self, if_false,
    Bool.false_eq_true, false_or]
  exact verifyFri_spin h fuel _ _ _ _ _ _ _
    (by simp [hnl])
    (by simp [hnl])
    (by simp [hq])
    (by simp [hq])

/-- The proof that `parse_sharpe_proof` produces from the all-zero arrays with
`query_metadata = [9, 1, 1, 0, …, 0]`: nine queries, one FRI layer, trace
length `2^1` (LDE domain `2^3 = 8 < 9`). -/
def proofNineQueries : SharpeStarkProof where
  traceCommitment := 0
  compositionCommitment := 0
  friLayerCommitments := [0]
  traceOodEvals := fun i => fpOf (List.getD (List.replicate 13 0) i.val 0)
  traceOodEvalsNext := fun i => fpOf (List.getD (List.replicate 13 0) (6 + i.val) 0)
  compositionOodEval := 0
  friFinalPoly := []
  queryIndices := List.replicate 9 0
  numFriLayers := 1
  logTraceLen := 1
  queryValues := List.replicate 18 0
  queryPaths := List.replicate 27 0

/-- The verifier runs forever on this input: whatever the hash function and
however much fuel the `draw_queries_into` loop is given, the run is still
inside the loop. -/
def verifierCannotFinish (pubs comms ood ffp qv qp qm : List Nat) : Prop :=
  ∀ (h : Nat → Nat → Nat) (fuel : Nat),
    verifySharpeStark h fuel pubs comms ood ffp qv qp qm = VRes.spin

/-- C10 counterexample: `verify_sharpe_stark` does NOT always return.  The
arrays below pass every parse-time bound check (`num_queries = 9 ≤ 64`,
`log_trace_len = 1`, one FRI layer, enough values and path elements), the
all-zero OOD row makes the composition check succeed, and then
`draw_queries_into` must fill 9 distinct indices from the LDE domain of size
`2^(1+2) = 8`: the `while written < count` loop never exits. -/
theorem C10_counterexample :
    verifierCannotFinish [0, 0, 0, 0] (List.replicate 3 0) (List.replicate 13 0) []
      (List.replicate 18 0) (List.replicate 27 0) ([9, 1, 1] ++ List.replicate 9 0) := by
  intro h fuel
  have hp : parseSharpeProof (List.replicate 3 0) (List.replicate 13 0) []
      (List.replicate 18 0) (List.replicate 27 0) ([9, 1, 1] ++ List.replicate 9 0)
      = some proofNineQueries := rfl
  simp only [verifySharpeStark, hp]
  rw [if_neg (by norm_num)]
  exact verifySharpeParsedProof_spin h fuel proofNineQueries _ (by decide) (by decide)
    (by decide) rfl rfl rfl rfl (by decide)

/-
### C7: the prover's FFT/IFFT round trip (`src/prover/src/domain.rs`)

`fft`/`ifft` are embedded as functional programs on `List Nat` (canonical
field values): the in-place slice is the list, `a.swap i j` and the
butterfly writes become `List.set`, the `for`/`while` loops become
fuel-indexed recursions (the fuel is the exact trip count of the source
loop).  `(i as u32).reverse_bits() >> (32 - log_n)` is `rev32`/`bitRevIndex`
below.
-/

/-- Reversal of the low `k` bits of `x` (mathematical form used in proofs:
peel the low bit, emit it at the top). -/
def revBits : Nat → Nat → Nat
  | 0, _ => 0
  | k + 1, x => revBits k (x / 2) + x % 2 * 2 ^ k

theorem revBits_lt : ∀ k x, revBits k x < 2 ^ k := by
  intro k
  induction k with
  | zero => intro x; simp [revBits]
  | succ k ih =>
    intro x
    have h1 := ih (x / 2)
    have h2 : x % 2 < 2 := Nat.mod_lt _ (by norm_num)
    have h3 : 2 ^ (k + 1) = 2 * 2 ^ k := by ring
    rw [revBits]
    nlinarith

theorem revBits_top : ∀ k x, revBits (k + 1) x = x / 2 ^ k % 2 + 2 * revBits k x := by
  intro k
  induction k with
  | zero => intro x; simp [revBits]
  | succ k ih =>
    intro x
    have hd : x / 2 / 2 ^ k = x / 2 ^ (k + 1) := by
      rw [Nat.div_div_eq_div_mul]
      congr 1
      ring
    calc revBits (k + 2) x = revBits (k + 1) (x / 2) + x % 2 * 2 ^ (k + 1) := rfl
      _ = x / 2 / 2 ^ k % 2 + 2 * revBits k (x / 2) + x % 2 * 2 ^ (k + 1) := by rw [ih]
      _ = x / 2 ^ (k + 1) % 2 + 2 * (revBits k (x / 2) + x % 2 * 2 ^ k) := by rw [hd]; ring
      _ = x / 2 ^ (k + 1) % 2 + 2 * revBits (k + 1) x := rfl

theorem revBits_mod : ∀ k x, revBits k (x % 2 ^ k) = revBits k x := by
  intro k
  induction k with
  | zero => intro x; simp [revBits]
  | succ k ih =>
    intro x
    have h1 : x % 2 ^ (k + 1) % 2 = x % 2 := by
      apply Nat.mod_mod_of_dvd
      exact dvd_pow_self 2 (Nat.succ_ne_zero k)
    have h2 : x % 2 ^ (k + 1) / 2 = x / 2 % 2 ^ k := by
      have : (2 : Nat) ^ (k + 1) = 2 * 2 ^ k := by ring
      rw [this, Nat.mod_mul_right_div_self]
    rw [revBits, h1, h2, ih, revBits]

theorem revBits_shift : ∀ a b x, revBits (b + a) x / 2 ^ a = revBits b x := by
  intro a
  induction a with
  | zero => intro b x; simp
  | succ a ih =>
    intro b x
    have h1 : b + (a + 1) = (b + a) + 1 := by ring
    rw [h1, revBits_top]
    have h2 : (2 : Nat) ^ (a + 1) = 2 * 2 ^ a := by ring
    have h3 : x / 2 ^ (b + a) % 2 < 2 := Nat.mod_lt _ (by norm_num)
    rw [h2, ← Nat.div_div_eq_div_mul]
    have h4 : (x / 2 ^ (b + a) % 2 + 2 * revBits (b + a) x) / 2 = revBits (b + a) x := by
      omega
    rw [h4, ih]

theorem revBits_revBits : ∀ k x, revBits k (revBits k x) = x % 2 ^ k := by
  intro k
  induction k with
  | zero => intro x; simp [revBits, Nat.mod_one]
  | succ k ih =>
    intro x
    have hlt : revBits k (x / 2) < 2 ^ k := revBits_lt k (x / 2)
    have hy : revBits (k + 1) x = revBits k (x / 2) + x % 2 * 2 ^ k := rfl
    rw [hy, revBits_top]
    have h1 : (revBits k (x / 2) + x % 2 * 2 ^ k) / 2 ^ k % 2 = x % 2 := by
      rw [Nat.add_mul_div_right _ _ (Nat.pos_pow_of_pos k (by norm_num)),
        Nat.div_eq_of_lt hlt]
      have : x % 2 < 2 := Nat.mod_lt _ (by norm_num)
      omega
    have h2 : revBits k (revBits k (x / 2) + x % 2 * 2 ^ k) = revBits k (revBits k (x / 2)) := by
      conv_lhs => rw [← revBits_mod]
      rw [Nat.add_mul_mod_self_right, Nat.mod_eq_of_lt hlt]
    rw [h1, h2, ih]
    have h3 : (2 : Nat) ^ (k + 1) = 2 * 2 ^ k := by ring
    rw [h3, Nat.mod_mul]

theorem revBits_inv_self (k x : Nat) (hx : x < 2 ^ k) : revBits k (revBits k x) = x := by
  rw [revBits_revBits, Nat.mod_eq_of_lt hx]

/-- `(i as u32).reverse_bits()`: bit `b` of the 32-bit word moves to
bit `31 - b`. -/
def rev32 (x : Nat) : Nat :=
  (List.range 32).foldl (fun acc b => acc + 2 ^ (31 - b) * (x >>> b % 2)) 0

theorem foldl_add_eq_sum (f : Nat → Nat) :
    ∀ (l : List Nat) (init : Nat), l.foldl (fun acc b => acc + f b) init = init + (l.map f).sum
  | [], init => by simp
  | b :: l, init => by
    rw [List.foldl_cons, foldl_add_eq_sum f l, List.map_cons, List.sum_cons]
    ring

theorem list_range_map_sum (f : Nat → Nat) :
    ∀ n, ((List.range n).map f).sum = ∑ b ∈ Finset.range n, f b := by
  intro n
  induction n with
  | zero => simp
  | succ n ih =>
    rw [List.range_succ, List.map_append, List.sum_append, Finset.sum_range_succ, ih]
    simp

theorem bitSum_eq_revBits (x : Nat) :
    ∀ n, (∑ b ∈ Finset.range n, 2 ^ (n - 1 - b) * (x >>> b % 2)) = revBits n x := by
  intro n
  induction n with
  | zero => simp [revBits]
  | succ n ih =>
    rw [Finset.sum_range_succ, revBits_top]
    have h1 : ∀ b ∈ Finset.range n,
        2 ^ (n + 1 - 1 - b) * (x >>> b % 2) = 2 * (2 ^ (n - 1 - b) * (x >>> b % 2)) := by
      intro b hb
      rw [Finset.mem_range] at hb
      have : n + 1 - 1 - b = (n - 1 - b) + 1 := by omega
      rw [this, pow_succ]
      ring
    rw [Finset.sum_congr rfl h1, ← Finset.mul_sum, ih]
    have h2 : n + 1 - 1 - n = 0 := by omega
    rw [h2, Nat.shiftRight_eq_div_pow]
    ring

theorem rev32_eq_revBits (x : Nat) : rev32 x = revBits 32 x := by
  rw [rev32, foldl_add_eq_sum, list_range_map_sum]
  have h1 : ∀ b ∈ Finset.range 32,
      2 ^ (31 - b) * (x >>> b % 2) = 2 ^ (32 - 1 - b) * (x >>> b % 2) := by
    intro b hb
    norm_num
  rw [Finset.sum_congr rfl h1, bitSum_eq_revBits]
  simp

/-- `(i as u32).reverse_bits() >> (32 - log_n)` (`bit_reverse_permutation`,
`domain.rs`). -/
def bitRevIndex (logn i : Nat) : Nat := rev32 (i % 2 ^ 32) >>> (32 - logn)

theorem bitRevIndex_eq_revBits (logn i : Nat) (hlogn : logn ≤ 32) :
    bitRevIndex logn i = revBits logn i := by
  rw [bitRevIndex, rev32_eq_revBits, revBits_mod, Nat.shiftRight_eq_div_pow]
  have h1 : (32 : Nat) = logn + (32 - logn) := by omega
  calc revBits 32 i / 2 ^ (32 - logn)
      = revBits (logn + (32 - logn)) i / 2 ^ (32 - logn) := by rw [← h1]
    _ = revBits logn i := revBits_shift (32 - logn) logn i

theorem getD_set_self {α : Type} (d x : α) (l : List α) (i : Nat) (h : i < l.length) :
    (l.set i x).getD i d = x := by
  rw [List.getD_eq_getElem?_getD, List.getElem?_set_eq_of_lt x h, Option.getD_some]

theorem getD_set_ne {α : Type} (d x : α) (l : List α) (i j : Nat) (h : i ≠ j) :
    (l.set i x).getD j d = l.getD j d := by
  rw [List.getD_eq_getElem?_getD, List.getElem?_set_ne h, ← List.getD_eq_getElem?_getD]

/-- `a.swap(i, j)` on a list, with out-of-range reads defaulting to `d`. -/
def swapAt {α : Type} (d : α) (a : List α) (i j : Nat) : List α :=
  (a.set i (a.getD j d)).set j (a.getD i d)

theorem swapAt_length {α : Type} (d : α) (a : List α) (i j : Nat) :
    (swapAt d a i j).length = a.length := by
  simp [swapAt]

theorem swapAt_getD_fst {α : Type} (d : α) (a : List α) (i j : Nat) (hij : i ≠ j)
    (hi : i < a.length) : (swapAt d a i j).getD i d = a.getD j d := by
  rw [swapAt, getD_set_ne _ _ _ _ _ (Ne.symm hij), getD_set_self _ _ _ _ hi]

theorem swapAt_getD_snd {α : Type} (d : α) (a : List α) (i j : Nat)
    (hj : j < a.length) : (swapAt d a i j).getD j d = a.getD i d := by
  rw [swapAt, getD_set_self]
  rwa [List.length_set]

theorem swapAt_getD_other {α : Type} (d : α) (a : List α) (i j x : Nat)
    (hx1 : x ≠ i) (hx2 : x ≠ j) : (swapAt d a i j).getD x d = a.getD x d := by
  rw [swapAt, getD_set_ne _ _ _ _ _ (Ne.symm hx2), getD_set_ne _ _ _ _ _ (Ne.symm hx1)]

theorem swapFold_length {α : Type} (d : α) (g : Nat → Nat) :
    ∀ (l : List Nat) (a : List α),
      (l.foldl (fun acc i => if i < g i then swapAt d acc i (g i) else acc) a).length
        = a.length
  | [], a => rfl
  | i :: l, a => by
    rw [List.foldl_cons, swapFold_length d g l]
    split
    · rw [swapAt_length]
    · rfl

theorem swapFold_getD_aux {α : Type} (d : α) (g : Nat → Nat) (n : Nat)
    (hg : ∀ i, i < n → g i < n) (hinv : ∀ i, i < n → g (g i) = i)
    (a : List α) (ha : a.length = n) :
    ∀ m, m ≤ n → ∀ x, x < n →
      ((List.range m).foldl (fun acc i => if i < g i then swapAt d acc i (g i) else acc) a).getD x d
        = a.getD (if x < m ∨ g x < m then g x else x) d := by
  intro m
  induction m with
  | zero =>
    intro _ x _
    simp
  | succ m ih =>
    intro hm x hx
    have hmn : m < n := by omega
    have hgm : g m < n := hg m hmn
    have hinvm : g (g m) = m := hinv m hmn
    have hlen : ((List.range m).foldl
        (fun acc i => if i < g i then swapAt d acc i (g i) else acc) a).length = n := by
      rw [swapFold_length, ha]
    rw [List.range_succ, List.foldl_append, List.foldl_cons, List.foldl_nil]
    by_cases hc : m < g m
    · rw [if_pos hc]
      by_cases hxm : x = m
      · subst hxm
        rw [swapAt_getD_fst d _ x (g x) (by omega) (by omega), ih (by omega) (g x) hgm]
        simp only [hinvm]
        rw [if_neg (by omega), if_pos (by omega)]
      · by_cases hxj : x = g m
        · subst hxj
          rw [swapAt_getD_snd d _ m (g m) (by omega), ih (by omega) m hmn]
          simp only [hinvm]
          rw [if_neg (by omega), if_pos (by omega)]
        · rw [swapAt_getD_other d _ m (g m) x (by omega) hxj, ih (by omega) x hx]
          have hgxm : g x ≠ m := by
            intro he
            exact hxj (by rw [← he, hinv x hx])
          by_cases hC : x < m ∨ g x < m
          · rw [if_pos hC, if_pos (by omega)]
          · rw [if_neg hC, if_neg (by omega)]
    · rw [if_neg hc, ih (by omega) x hx]
      by_cases hxm : x = m
      · subst hxm
        by_cases hgmx : g x < x
        · rw [if_pos (Or.inr hgmx), if_pos (by omega)]
        · have hgx : g x = x := by omega
          rw [if_neg (by omega), if_pos (by omega), hgx]
      · by_cases hgxm : g x = m
        · have hxgm : x = g m := by rw [← hgxm, hinv x hx]
          have hxlt : x < m := by omega
          rw [if_pos (Or.inl hxlt), if_pos (by omega)]
        · by_cases hC : x < m ∨ g x < m
          · rw [if_pos hC, if_pos (by omega)]
          · rw [if_neg hC, if_neg (by omega)]

/-- `bit_reverse_permutation` (`domain.rs`): swap `i` with
`j = (i as u32).reverse_bits() >> (32 - log_n)` whenever `i < j`. -/
def bit_reverse_permutation (a : List Nat) (logn : Nat) : List Nat :=
  (List.range a.length).foldl (fun acc i =>
    if i < bitRevIndex logn i then swapAt 0 acc i (bitRevIndex logn i) else acc) a

theorem bit_reverse_permutation_length (a : List Nat) (logn : Nat) :
    (bit_reverse_permutation a logn).length = a.length :=
  swapFold_length 0 (bitRevIndex logn) (List.range a.length) a

theorem bit_reverse_permutation_getD (a : List Nat) (K : Nat) (hK : K ≤ 32)
    (ha : a.length = 2 ^ K) (x : Nat) (hx : x < 2 ^ K) :
    (bit_reverse_permutation a K).getD x 0 = a.getD (revBits K x) 0 := by
  have hg : ∀ i, i < 2 ^ K → bitRevIndex K i < 2 ^ K := by
    intro i _
    rw [bitRevIndex_eq_revBits _ _ hK]
    exact revBits_lt K i
  have hinv : ∀ i, i < 2 ^ K → bitRevIndex K (bitRevIndex K i) = i := by
    intro i hi
    rw [bitRevIndex_eq_revBits _ _ hK, bitRevIndex_eq_revBits _ _ hK]
    exact revBits_inv_self K i hi
  have h := swapFold_getD_aux 0 (bitRevIndex K) (2 ^ K) hg hinv a ha (2 ^ K) le_rfl x hx
  rw [if_pos (Or.inl hx), bitRevIndex_eq_revBits _ _ hK] at h
  rw [bit_reverse_permutation, ha]
  exact h

/-- The `for j in 0..half_m` butterfly loop of `fft`/`ifft` (`domain.rs`),
at block start `k`, with `fuel` iterations remaining, current index `j` and
current twiddle power `w`. -/
def bfJ (wm k halfM : Nat) : Nat → Nat → Nat → List Nat → List Nat
  | 0, _, _, a => a
  | fuel + 1, j, w, a =>
    let u := a.getD (k + j) 0
    let t := fmul w (a.getD (k + j + halfM) 0)
    bfJ wm k halfM fuel (j + 1) (fmul w wm)
      ((a.set (k + j) (fadd u t)).set (k + j + halfM) (fsub u t))

/-- The `while k < n` block loop of `fft`/`ifft` (`domain.rs`). -/
def bfWhile (wm m halfM n : Nat) : Nat → Nat → List Nat → List Nat
  | 0, _, a => a
  | fuel + 1, k, a =>
    if k < n then bfWhile wm m halfM n fuel (k + m) (bfJ wm k halfM halfM 0 1 a)
    else a

/-- `fft` (`domain.rs`): bit-reverse then `log_size` butterfly stages with
`w_m = domain_generator(s + 1)`.  The `while` fuel `n` covers the `n / m`
trips of the source loop. -/
def fft (coeffs : List Nat) (logSize : Nat) : List Nat :=
  let n := coeffs.length
  if n = 1 then coeffs
  else
    (List.range logSize).foldl (fun a s =>
      bfWhile (domainGeneratorT (s + 1)) (2 ^ (s + 1)) (2 ^ (s + 1) / 2) n n 0 a)
      (bit_reverse_permutation coeffs logSize)

/-- `ifft` (`domain.rs`): same butterflies with the inverse twiddles,
then multiply through by `n^{-1}`. -/
def ifft (evals : List Nat) (logSize : Nat) : List Nat :=
  let n := evals.length
  if n = 1 then evals
  else
    ((List.range logSize).foldl (fun a s =>
      bfWhile (finv (domainGeneratorT (s + 1))) (2 ^ (s + 1)) (2 ^ (s + 1) / 2) n n 0 a)
      (bit_reverse_permutation evals logSize)).map (fun x => fmul x (finv n))

/-- Canonical-value embedding of a list into the field. -/
def castL (a : List Nat) : List Fq := a.map (Nat.cast : Nat → Fq)

/-- All entries canonical. -/
def allLt (a : List Nat) : Prop := ∀ x ∈ a, x < P

/-- Field-level mirror of `bfJ`. -/
def bfJZ (wm : Fq) (k halfM : Nat) : Nat → Nat → Fq → List Fq → List Fq
  | 0, _, _, a => a
  | fuel + 1, j, w, a =>
    bfJZ wm k halfM fuel (j + 1) (w * wm)
      ((a.set (k + j) (a.getD (k + j) 0 + w * a.getD (k + j + halfM) 0)).set
        (k + j + halfM) (a.getD (k + j) 0 - w * a.getD (k + j + halfM) 0))

/-- Field-level mirror of `bfWhile`. -/
def bfWhileZ (wm : Fq) (m halfM n : Nat) : Nat → Nat → List Fq → List Fq
  | 0, _, a => a
  | fuel + 1, k, a =>
    if k < n then bfWhileZ wm m halfM n fuel (k + m) (bfJZ wm k halfM halfM 0 1 a)
    else a

/-- Field-level mirror of the stage loop, with twiddle family `wf`. -/
def stagesZ (wf : Nat → Fq) (K n : Nat) (a : List Fq) : List Fq :=
  (List.range K).foldl (fun a s => bfWhileZ (wf (s + 1)) (2 ^ (s + 1)) (2 ^ (s + 1) / 2) n n 0 a) a

theorem P_pos : 0 < P := by norm_num [P]

theorem allLt_getD {a : List Nat} (ha : allLt a) (i : Nat) : a.getD i 0 < P := by
  by_cases h : i < a.length
  · rw [List.getD_eq_getElem _ _ h]
    exact ha _ (List.getElem_mem h)
  · rw [List.getD_eq_default _ _ (by omega)]
    exact P_pos

theorem castL_length (a : List Nat) : (castL a).length = a.length := List.length_map a _

theorem castL_getD (a : List Nat) (i : Nat) :
    (castL a).getD i 0 = ((a.getD i 0 : Nat) : Fq) := by
  by_cases h : i < a.length
  · have h2 : i < (castL a).length := by rwa [castL_length]
    rw [List.getD_eq_getElem _ _ h2, List.getD_eq_getElem _ _ h]
    simp [castL]
  · have h2 : (castL a).length ≤ i := by rw [castL_length]; omega
    rw [List.getD_eq_default _ _ h2, List.getD_eq_default _ _ (by omega)]
    simp

theorem castL_set (a : List Nat) (i x : Nat) :
    castL (a.set i x) = (castL a).set i (x : Fq) :=
  List.map_set

theorem allLt_set {a : List Nat} (ha : allLt a) {x : Nat} (hx : x < P) (i : Nat) :
    allLt (a.set i x) := by
  intro y hy
  rcases List.mem_or_eq_of_mem_set hy with hy | hy
  · exact ha y hy
  · omega

theorem bfJ_cast (wm k halfM : Nat) :
    ∀ fuel j w a, allLt a →
      castL (bfJ wm k halfM fuel j w a)
          = bfJZ (wm : Fq) k halfM fuel j (w : Fq) (castL a)
        ∧ allLt (bfJ wm k halfM fuel j w a) := by
  intro fuel
  induction fuel with
  | zero => intro j w a ha; exact ⟨rfl, ha⟩
  | succ fuel ih =>
    intro j w a ha
    have hu : a.getD (k + j) 0 < P := allLt_getD ha _
    have ht : fmul w (a.getD (k + j + halfM) 0) < P := fmul_lt _ _
    have ha' : allLt ((a.set (k + j) (fadd (a.getD (k + j) 0)
        (fmul w (a.getD (k + j + halfM) 0)))).set (k + j + halfM)
        (fsub (a.getD (k + j) 0) (fmul w (a.getD (k + j + halfM) 0)))) :=
      allLt_set (allLt_set ha (fadd_lt _ _) _) (fsub_lt _ _ hu) _
    have hrec := ih (j + 1) (fmul w wm) _ ha'
    refine ⟨?_, hrec.2⟩
    rw [bfJ]
    rw [hrec.1, bfJZ]
    congr 1
    · exact cast_fmul w wm
    · rw [castL_set, castL_set, cast_fadd, cast_fsub _ _ hu ht, cast_fmul,
        castL_getD, castL_getD]

theorem bfWhile_cast (wm m halfM n : Nat) :
    ∀ fuel k a, allLt a →
      castL (bfWhile wm m halfM n fuel k a)
          = bfWhileZ (wm : Fq) m halfM n fuel k (castL a)
        ∧ allLt (bfWhile wm m halfM n fuel k a) := by
  intro fuel
  induction fuel with
  | zero => intro k a ha; exact ⟨rfl, ha⟩
  | succ fuel ih =>
    intro k a ha
    rw [bfWhile, bfWhileZ]
    by_cases hk : k < n
    · rw [if_pos hk, if_pos hk]
      have hb := bfJ_cast wm k halfM halfM 0 1 a ha
      have hrec := ih (k + m) _ hb.2
      refine ⟨?_, hrec.2⟩
      rw [hrec.1, hb.1]
      norm_num
    · rw [if_neg hk, if_neg hk]
      exact ⟨rfl, ha⟩

theorem allLt_swapAt {a : List Nat} (ha : allLt a) (i j : Nat) : allLt (swapAt 0 a i j) :=
  allLt_set (allLt_set ha (allLt_getD ha _) _) (allLt_getD ha _) _

theorem allLt_swapFold (g : Nat → Nat) :
    ∀ (l : List Nat) (a : List Nat), allLt a →
      allLt (l.foldl (fun acc i => if i < g i then swapAt 0 acc i (g i) else acc) a)
  | [], _, ha => ha
  | i :: l, a, ha => by
    rw [List.foldl_cons]
    split
    · exact allLt_swapFold g l _ (allLt_swapAt ha _ _)
    · exact allLt_swapFold g l _ ha

theorem allLt_brp {a : List Nat} (ha : allLt a) (logn : Nat) :
    allLt (bit_reverse_permutation a logn) := by
  rw [bit_reverse_permutation]
  exact allLt_swapFold (bitRevIndex logn) (List.range a.length) a ha

theorem stagesFold_cast (wnat : Nat → Nat) (n : Nat) :
    ∀ (l : List Nat) (a : List Nat), allLt a →
      castL (l.foldl (fun a s =>
          bfWhile (wnat (s + 1)) (2 ^ (s + 1)) (2 ^ (s + 1) / 2) n n 0 a) a)
          = l.foldl (fun a s =>
              bfWhileZ ((wnat (s + 1) : Nat) : Fq) (2 ^ (s + 1)) (2 ^ (s + 1) / 2) n n 0 a)
              (castL a)
        ∧ allLt (l.foldl (fun a s =>
            bfWhile (wnat (s + 1)) (2 ^ (s + 1)) (2 ^ (s + 1) / 2) n n 0 a) a)
  | [], a, ha => ⟨rfl, ha⟩
  | s :: l, a, ha => by
    rw [List.foldl_cons, List.foldl_cons]
    have hb := bfWhile_cast (wnat (s + 1)) (2 ^ (s + 1)) (2 ^ (s + 1) / 2) n n 0 a ha
    have hrec := stagesFold_cast wnat n l _ hb.2
    exact ⟨by rw [hrec.1, hb.1], hrec.2⟩

theorem fft_cast (v : List Nat) (K : Nat) (hv : allLt v) (hlen : v.length = 2 ^ K)
    (hK1 : 1 ≤ K) :
    castL (fft v K)
        = stagesZ (fun s => ((domainGeneratorT s : Nat) : Fq)) K (2 ^ K)
            (castL (bit_reverse_permutation v K))
      ∧ allLt (fft v K) := by
  rw [fft]
  simp only [hlen]
  rw [if_neg (by have h := Nat.one_lt_two_pow_iff (n := K); omega)]
  exact stagesFold_cast (fun s => domainGeneratorT s) (2 ^ K) (List.range K)
    (bit_reverse_permutation v K) (allLt_brp hv K)

theorem castL_map_fmul :
    ∀ (a : List Nat) (c : Nat),
      castL (a.map (fun x => fmul x c)) = (castL a).map (fun x => x * (c : Fq))
  | [], _ => rfl
  | y :: a, c => by
    have ih := castL_map_fmul a c
    simp only [castL, List.map_cons] at ih ⊢
    rw [cast_fmul y c, ih]

theorem ifft_cast (v : List Nat) (K : Nat) (hv : allLt v) (hlen : v.length = 2 ^ K)
    (hK1 : 1 ≤ K) :
    castL (ifft v K)
        = (stagesZ (fun s => ((finv (domainGeneratorT s) : Nat) : Fq)) K (2 ^ K)
            (castL (bit_reverse_permutation v K))).map
              (fun x => x * ((finv (2 ^ K) : Nat) : Fq))
      ∧ allLt (ifft v K) := by
  rw [ifft]
  simp only [hlen]
  rw [if_neg (by have h := Nat.one_lt_two_pow_iff (n := K); omega)]
  have hst := stagesFold_cast (fun s => finv (domainGeneratorT s)) (2 ^ K) (List.range K)
    (bit_reverse_permutation v K) (allLt_brp hv K)
  constructor
  · rw [castL_map_fmul, hst.1]
    rfl
  · intro x hx
    rcases List.mem_map.mp hx with ⟨y, _, hy⟩
    rw [← hy]
    exact fmul_lt _ _

theorem bfJZ_length (wm : Fq) (k halfM : Nat) :
    ∀ fuel j w a, (bfJZ wm k halfM fuel j w a).length = a.length
  | 0, _, _, _ => rfl
  | fuel + 1, j, w, a => by
    rw [bfJZ, bfJZ_length wm k halfM fuel]
    simp

theorem bfJZ_getD_outside (wm : Fq) (k halfM : Nat) :
    ∀ fuel j w a x, j + fuel ≤ halfM →
      (x < k + j ∨ (k + j + fuel ≤ x ∧ x < k + halfM + j) ∨ k + halfM + j + fuel ≤ x) →
      (bfJZ wm k halfM fuel j w a).getD x 0 = a.getD x 0
  | 0, _, _, _, _, _, _ => rfl
  | fuel + 1, j, w, a, x, hj, hx => by
    have h1 : x ≠ k + j := by omega
    have h2 : x ≠ k + j + halfM := by omega
    rw [bfJZ, bfJZ_getD_outside wm k halfM fuel (j + 1) _ _ x (by omega) (by omega),
      getD_set_ne _ _ _ _ _ (by omega), getD_set_ne _ _ _ _ _ (by omega)]

theorem bfJZ_getD_pair (wm : Fq) (k halfM : Nat) :
    ∀ fuel j w a, j + fuel ≤ halfM → k + 2 * halfM ≤ a.length →
      ∀ t, j ≤ t → t < j + fuel →
      (bfJZ wm k halfM fuel j w a).getD (k + t) 0
          = a.getD (k + t) 0 + (w * wm ^ (t - j)) * a.getD (k + t + halfM) 0
        ∧ (bfJZ wm k halfM fuel j w a).getD (k + t + halfM) 0
          = a.getD (k + t) 0 - (w * wm ^ (t - j)) * a.getD (k + t + halfM) 0 := by
  intro fuel
  induction fuel with
  | zero =>
    intro j w a _ _ t ht1 ht2
    omega
  | succ fuel ih =>
    intro j w a hj hlen t ht1 ht2
    have hhalf : 1 ≤ halfM := by omega
    have hkj : k + j < a.length := by omega
    have hkjh : k + j + halfM < a.length := by omega
    have hne : k + j ≠ k + j + halfM := by omega
    rw [bfJZ]
    by_cases htj : t = j
    · subst htj
      constructor
      · rw [bfJZ_getD_outside wm k halfM fuel (t + 1) _ _ (k + t) (by omega) (by omega),
          getD_set_ne _ _ _ _ _ (by omega), getD_set_self _ _ _ _ hkj]
        simp
      · rw [bfJZ_getD_outside wm k halfM fuel (t + 1) _ _ (k + t + halfM) (by omega) (by omega),
          getD_set_self]
        · simp
        · rw [List.length_set]
          omega
    · have hrec := ih (j + 1) (w * wm)
        ((a.set (k + j) (a.getD (k + j) 0 + w * a.getD (k + j + halfM) 0)).set
          (k + j + halfM) (a.getD (k + j) 0 - w * a.getD (k + j + halfM) 0))
        (by omega) (by simp; omega) t (by omega) (by omega)
      have hg1 : ((a.set (k + j) (a.getD (k + j) 0 + w * a.getD (k + j + halfM) 0)).set
          (k + j + halfM) (a.getD (k + j) 0 - w * a.getD (k + j + halfM) 0)).getD (k + t) 0
          = a.getD (k + t) 0 := by
        rw [getD_set_ne _ _ _ _ _ (by omega), getD_set_ne _ _ _ _ _ (by omega)]
      have hg2 : ((a.set (k + j) (a.getD (k + j) 0 + w * a.getD (k + j + halfM) 0)).set
          (k + j + halfM) (a.getD (k + j) 0 - w * a.getD (k + j + halfM) 0)).getD
            (k + t + halfM) 0
          = a.getD (k + t + halfM) 0 := by
        rw [getD_set_ne _ _ _ _ _ (by omega), getD_set_ne _ _ _ _ _ (by omega)]
      have hw : w * wm * wm ^ (t - (j + 1)) = w * wm ^ (t - j) := by
        have he : t - j = (t - (j + 1)) + 1 := by omega
        rw [he, pow_succ]
        ring
      rw [hg1, hg2, hw] at hrec
      exact hrec

theorem bfWhileZ_getD (wm : Fq) (m halfM n : Nat) (hm : m = 2 * halfM) (hh : 1 ≤ halfM)
    (hdvd : m ∣ n) :
    ∀ fuel k0 a, a.length = n → m ∣ k0 → n ≤ k0 + m * fuel →
      (∀ x, x < k0 → (bfWhileZ wm m halfM n fuel k0 a).getD x 0 = a.getD x 0)
      ∧ ∀ c j, j < halfM → k0 + c * m + m ≤ n →
          (bfWhileZ wm m halfM n fuel k0 a).getD (k0 + c * m + j) 0
            = a.getD (k0 + c * m + j) 0 + wm ^ j * a.getD (k0 + c * m + j + halfM) 0
          ∧ (bfWhileZ wm m halfM n fuel k0 a).getD (k0 + c * m + j + halfM) 0
            = a.getD (k0 + c * m + j) 0 - wm ^ j * a.getD (k0 + c * m + j + halfM) 0 := by
  intro fuel
  induction fuel with
  | zero =>
    intro k0 a hlen hk0 hfuel
    rw [bfWhileZ]
    refine ⟨fun x _ => rfl, fun c j hj hcm => ?_⟩
    exfalso
    omega
  | succ fuel ih =>
    intro k0 a hlen hk0 hfuel
    rw [bfWhileZ]
    by_cases hk : k0 < n
    · rw [if_pos hk]
      have hk0m : k0 + m ≤ n := by
        obtain ⟨q, hq⟩ := hk0
        obtain ⟨r, hr⟩ := hdvd
        have hqr : q < r := by
          by_contra hc
          push_neg at hc
          have := Nat.mul_le_mul_left m hc
          omega
        have h2 : q + 1 ≤ r := hqr
        have := Nat.mul_le_mul_left m h2
        have h3 : m * (q + 1) = m * q + m := by ring
        omega
      have hlen' : (bfJZ wm k0 halfM halfM 0 1 a).length = n := by
        rw [bfJZ_length, hlen]
      have hfuel' : n ≤ k0 + m + m * fuel := by
        have h3 : m * (fuel + 1) = m * fuel + m := by ring
        omega
      have hIH := ih (k0 + m) (bfJZ wm k0 halfM halfM 0 1 a) hlen'
        (Dvd.dvd.add hk0 (dvd_refl m)) hfuel'
      have hblen : k0 + 2 * halfM ≤ a.length := by omega
      constructor
      · intro x hx
        rw [hIH.1 x (by omega),
          bfJZ_getD_outside wm k0 halfM halfM 0 1 a x (by omega) (by omega)]
      · intro c j hj hcm
        rcases c with _ | c'
        · have hj1 : k0 + 0 * m + j = k0 + j := by ring
          have hp := bfJZ_getD_pair wm k0 halfM halfM 0 1 a (by omega) hblen j (by omega)
            (by omega)
          have hpre1 := hIH.1 (k0 + j) (by omega)
          have hpre2 := hIH.1 (k0 + j + halfM) (by omega)
          rw [hj1, hpre1, hpre2, hp.1, hp.2]
          constructor
          · rw [Nat.sub_zero, one_mul]
          · rw [Nat.sub_zero, one_mul]
        · have he1 : k0 + (c' + 1) * m + j = (k0 + m) + c' * m + j := by ring
          have hb := hIH.2 c' j hj (by omega)
          have ho1 : (bfJZ wm k0 halfM halfM 0 1 a).getD ((k0 + m) + c' * m + j) 0
              = a.getD ((k0 + m) + c' * m + j) 0 :=
            bfJZ_getD_outside wm k0 halfM halfM 0 1 a _ (by omega) (by omega)
          have ho2 : (bfJZ wm k0 halfM halfM 0 1 a).getD ((k0 + m) + c' * m + j + halfM) 0
              = a.getD ((k0 + m) + c' * m + j + halfM) 0 :=
            bfJZ_getD_outside wm k0 halfM halfM 0 1 a _ (by omega) (by omega)
          rw [he1, hb.1, hb.2, ho1, ho2]
          exact ⟨rfl, rfl⟩
    · rw [if_neg hk]
      refine ⟨fun x _ => rfl, fun c j hj hcm => ?_⟩
      exfalso
      omega

theorem bfWhileZ_length (wm : Fq) (m halfM n : Nat) :
    ∀ fuel k a, (bfWhileZ wm m halfM n fuel k a).length = a.length
  | 0, _, _ => rfl
  | fuel + 1, k, a => by
    rw [bfWhileZ]
    split
    · rw [bfWhileZ_length wm m halfM n fuel, bfJZ_length]
    · rfl

theorem revBits_double (k b : Nat) : revBits (k + 1) (2 * b) = revBits k b := by
  rw [revBits]
  have h1 : 2 * b / 2 = b := by omega
  have h2 : 2 * b % 2 = 0 := by omega
  rw [h1, h2]
  ring

theorem revBits_double_add_one (k b : Nat) :
    revBits (k + 1) (2 * b + 1) = revBits k b + 2 ^ k := by
  rw [revBits]
  have h1 : (2 * b + 1) / 2 = b := by omega
  have h2 : (2 * b + 1) % 2 = 1 := by omega
  rw [h1, h2]
  ring

theorem sum_range_even_odd (f : Nat → Fq) :
    ∀ n, ∑ u ∈ Finset.range (2 * n), f u
      = (∑ u ∈ Finset.range n, f (2 * u)) + ∑ u ∈ Finset.range n, f (2 * u + 1) := by
  intro n
  induction n with
  | zero => simp
  | succ n ih =>
    have h2 : 2 * (n + 1) = 2 * n + 1 + 1 := by ring
    rw [h2, Finset.sum_range_succ, Finset.sum_range_succ, ih,
      Finset.sum_range_succ, Finset.sum_range_succ]
    ring

/-- The loop invariant of the iterative Cooley-Tukey stages: after `s`
stages, block `b` of size `2^s` holds the `2^s`-point DFT (with root
`Ω^(2^(K-s))`) of the stride-`2^(K-s)` subsequence of the original list
starting at the bit-reversed block index. -/
def stageInv (om : Fq) (K : Nat) (v : List Fq) (s : Nat) (a : List Fq) : Prop :=
  a.length = 2 ^ K ∧
  ∀ b t, b < 2 ^ (K - s) → t < 2 ^ s →
    a.getD (b * 2 ^ s + t) 0
      = ∑ u ∈ Finset.range (2 ^ s),
          v.getD (u * 2 ^ (K - s) + revBits (K - s) b) 0 * om ^ (2 ^ (K - s) * t * u)

theorem om_pow_reduce (om : Fq) (K u e : Nat) (h1 : om ^ 2 ^ K = 1) :
    om ^ (2 ^ K * u + e) = om ^ e := by
  rw [pow_add, pow_mul, h1, one_pow, one_mul]

theorem om_pow_half (om : Fq) (K e : Nat) (h2 : om ^ 2 ^ (K - 1) = -1) :
    om ^ (2 ^ (K - 1) + e) = -om ^ e := by
  rw [pow_add, h2]
  ring

theorem stage_step (om : Fq) (K : Nat) (v a : List Fq) (s : Nat) (hs : s < K)
    (h1 : om ^ 2 ^ K = 1) (h2 : om ^ 2 ^ (K - 1) = -1)
    (hinv : stageInv om K v s a) :
    stageInv om K v (s + 1)
      (bfWhileZ (om ^ 2 ^ (K - (s + 1))) (2 ^ (s + 1)) (2 ^ (s + 1) / 2) (2 ^ K) (2 ^ K)
        0 a) := by
  obtain ⟨hlen, hblocks⟩ := hinv
  have hhalf : (2 : Nat) ^ (s + 1) / 2 = 2 ^ s := by
    rw [pow_succ]
    omega
  have hm2 : (2 : Nat) ^ (s + 1) = 2 * 2 ^ s := by rw [pow_succ]; ring
  have hKs : K - s = K - (s + 1) + 1 := by omega
  have hpKs : (2 : Nat) ^ (K - s) = 2 * 2 ^ (K - (s + 1)) := by rw [hKs, pow_succ]; ring
  have hKK : (2 : Nat) ^ (K - s) * 2 ^ s = 2 ^ K := by
    rw [← pow_add]
    congr 1
    omega
  have h2K1 : (2 : Nat) ^ (K - (s + 1)) * 2 ^ s = 2 ^ (K - 1) := by
    rw [← pow_add]
    congr 1
    omega
  have hdvd : (2 : Nat) ^ (s + 1) ∣ 2 ^ K := pow_dvd_pow 2 (by omega)
  have hfuel : (2 : Nat) ^ K ≤ 0 + 2 ^ (s + 1) * 2 ^ K := by
    have hp : 0 < (2 : Nat) ^ (s + 1) := Nat.pos_pow_of_pos _ (by norm_num)
    have hq := Nat.le_mul_of_pos_left (2 ^ K) hp
    omega
  rw [hhalf]
  have hW := bfWhileZ_getD (om ^ 2 ^ (K - (s + 1))) (2 ^ (s + 1)) (2 ^ s) (2 ^ K)
    hm2 (Nat.pos_pow_of_pos _ (by norm_num)) hdvd (2 ^ K) 0 a hlen (dvd_zero _) hfuel
  constructor
  · rw [bfWhileZ_length, hlen]
  · intro b t hb ht
    have hb2 : 2 * b < 2 ^ (K - s) := by omega
    have hb2' : 2 * b + 1 < 2 ^ (K - s) := by omega
    have hble : 0 + b * 2 ^ (s + 1) + 2 ^ (s + 1) ≤ 2 ^ K := by
      have hstride : (2 : Nat) ^ (K - (s + 1)) * 2 ^ (s + 1) = 2 ^ K := by
        rw [← pow_add]
        congr 1
        omega
      have hmul : (b + 1) * 2 ^ (s + 1) ≤ 2 ^ (K - (s + 1)) * 2 ^ (s + 1) :=
        Nat.mul_le_mul_right _ (by omega)
      have hexp : (b + 1) * 2 ^ (s + 1) = b * 2 ^ (s + 1) + 2 ^ (s + 1) := by ring
      omega
    by_cases htc : t < 2 ^ s
    · have hwb := hW.2 b t htc hble
      rw [show b * 2 ^ (s + 1) + t = 0 + b * 2 ^ (s + 1) + t from by ring, hwb.1,
        show (0 + b * 2 ^ (s + 1) + t : Nat) = 2 * b * 2 ^ s + t from by rw [hm2]; ring,
        show (2 * b * 2 ^ s + t + 2 ^ s : Nat) = (2 * b + 1) * 2 ^ s + t from by ring,
        hblocks (2 * b) t hb2 htc, hblocks (2 * b + 1) t hb2' htc]
      have hEven : ∑ u ∈ Finset.range (2 ^ s),
          v.getD (2 * u * 2 ^ (K - (s + 1)) + revBits (K - (s + 1)) b) 0
            * om ^ (2 ^ (K - (s + 1)) * t * (2 * u))
          = ∑ u ∈ Finset.range (2 ^ s),
            v.getD (u * 2 ^ (K - s) + revBits (K - s) (2 * b)) 0
              * om ^ (2 ^ (K - s) * t * u) := by
        refine Finset.sum_congr rfl fun u _ => ?_
        have hi : 2 * u * 2 ^ (K - (s + 1)) + revBits (K - (s + 1)) b
            = u * 2 ^ (K - s) + revBits (K - s) (2 * b) := by
          rw [hKs, revBits_double, pow_succ]
          ring
        have he : 2 ^ (K - (s + 1)) * t * (2 * u) = 2 ^ (K - s) * t * u := by
          rw [hKs, pow_succ]
          ring
        rw [hi, he]
      have hOdd : ∑ u ∈ Finset.range (2 ^ s),
          v.getD ((2 * u + 1) * 2 ^ (K - (s + 1)) + revBits (K - (s + 1)) b) 0
            * om ^ (2 ^ (K - (s + 1)) * t * (2 * u + 1))
          = ∑ u ∈ Finset.range (2 ^ s),
            (om ^ 2 ^ (K - (s + 1))) ^ t
              * (v.getD (u * 2 ^ (K - s) + revBits (K - s) (2 * b + 1)) 0
                * om ^ (2 ^ (K - s) * t * u)) := by
        refine Finset.sum_congr rfl fun u _ => ?_
        have hi : (2 * u + 1) * 2 ^ (K - (s + 1)) + revBits (K - (s + 1)) b
            = u * 2 ^ (K - s) + revBits (K - s) (2 * b + 1) := by
          rw [hKs, revBits_double_add_one, pow_succ]
          ring
        have he : om ^ (2 ^ (K - (s + 1)) * t * (2 * u + 1))
            = (om ^ 2 ^ (K - (s + 1))) ^ t * om ^ (2 ^ (K - s) * t * u) := by
          rw [← pow_mul, ← pow_add]
          congr 1
          rw [hKs, pow_succ]
          ring
        rw [hi, he]
        ring
      conv_rhs => rw [hm2]
      rw [sum_range_even_odd, hEven, hOdd, ← Finset.mul_sum]
    · have hjlt : t - 2 ^ s < 2 ^ s := by omega
      have hjt : t = 2 ^ s + (t - 2 ^ s) := by omega
      have hwb := hW.2 b (t - 2 ^ s) hjlt hble
      rw [show b * 2 ^ (s + 1) + t = 0 + b * 2 ^ (s + 1) + (t - 2 ^ s) + 2 ^ s from by
          rw [hm2]; omega, hwb.2,
        show (0 + b * 2 ^ (s + 1) + (t - 2 ^ s) : Nat) = 2 * b * 2 ^ s + (t - 2 ^ s) from by
          rw [hm2]; ring,
        show (2 * b * 2 ^ s + (t - 2 ^ s) + 2 ^ s : Nat)
            = (2 * b + 1) * 2 ^ s + (t - 2 ^ s) from by ring,
        hblocks (2 * b) (t - 2 ^ s) hb2 hjlt, hblocks (2 * b + 1) (t - 2 ^ s) hb2' hjlt]
      have hEven : ∑ u ∈ Finset.range (2 ^ s),
          v.getD (2 * u * 2 ^ (K - (s + 1)) + revBits (K - (s + 1)) b) 0
            * om ^ (2 ^ (K - (s + 1)) * t * (2 * u))
          = ∑ u ∈ Finset.range (2 ^ s),
            v.getD (u * 2 ^ (K - s) + revBits (K - s) (2 * b)) 0
              * om ^ (2 ^ (K - s) * (t - 2 ^ s) * u) := by
        refine Finset.sum_congr rfl fun u _ => ?_
        have hi : 2 * u * 2 ^ (K - (s + 1)) + revBits (K - (s + 1)) b
            = u * 2 ^ (K - s) + revBits (K - s) (2 * b) := by
          rw [hKs, revBits_double, pow_succ]
          ring
        have hexp : 2 ^ (K - (s + 1)) * t * (2 * u)
            = 2 ^ K * u + 2 ^ (K - s) * (t - 2 ^ s) * u := by
          conv_lhs => rw [hjt]
          rw [← hKK, hpKs]
          ring
        rw [hi, hexp, om_pow_reduce om K u _ h1]
      have hOdd : ∑ u ∈ Finset.range (2 ^ s),
          v.getD ((2 * u + 1) * 2 ^ (K - (s + 1)) + revBits (K - (s + 1)) b) 0
            * om ^ (2 ^ (K - (s + 1)) * t * (2 * u + 1))
          = -((om ^ 2 ^ (K - (s + 1))) ^ (t - 2 ^ s)
              * ∑ u ∈ Finset.range (2 ^ s),
                v.getD (u * 2 ^ (K - s) + revBits (K - s) (2 * b + 1)) 0
                  * om ^ (2 ^ (K - s) * (t - 2 ^ s) * u)) := by
        rw [Finset.mul_sum, ← Finset.sum_neg_distrib]
        refine Finset.sum_congr rfl fun u _ => ?_
        have hi : (2 * u + 1) * 2 ^ (K - (s + 1)) + revBits (K - (s + 1)) b
            = u * 2 ^ (K - s) + revBits (K - s) (2 * b + 1) := by
          rw [hKs, revBits_double_add_one, pow_succ]
          ring
        have hexp : 2 ^ (K - (s + 1)) * t * (2 * u + 1)
            = 2 ^ K * u + (2 ^ (K - 1)
                + (2 ^ (K - (s + 1)) * (t - 2 ^ s) + 2 ^ (K - s) * (t - 2 ^ s) * u)) := by
          conv_lhs => rw [hjt]
          rw [← h2K1, ← hKK, hpKs]
          ring
        rw [hi, hexp, om_pow_reduce om K u _ h1, om_pow_half om K _ h2, pow_add, pow_mul]
        ring
      conv_rhs => rw [hm2]
      rw [sum_range_even_odd, hEven, hOdd, sub_eq_add_neg]

theorem bfWhileZfold_length (wf : Nat → Fq) (n : Nat) :
    ∀ (l : List Nat) (a : List Fq),
      (l.foldl (fun a s => bfWhileZ (wf (s + 1)) (2 ^ (s + 1)) (2 ^ (s + 1) / 2) n n 0 a)
        a).length = a.length
  | [], _ => rfl
  | s :: l, a => by
    rw [List.foldl_cons, bfWhileZfold_length wf n l, bfWhileZ_length]

theorem stagesZ_length (wf : Nat → Fq) (K n : Nat) (a : List Fq) :
    (stagesZ wf K n a).length = a.length :=
  bfWhileZfold_length wf n (List.range K) a

theorem stageInv_zero (om : Fq) (K : Nat) (vN : List Nat) (hK : K ≤ 32)
    (hlen : vN.length = 2 ^ K) :
    stageInv om K (castL vN) 0 (castL (bit_reverse_permutation vN K)) := by
  constructor
  · rw [castL_length, bit_reverse_permutation_length, hlen]
  · intro b t hb ht
    have hb' : b < 2 ^ K := by simpa using hb
    have ht0 : t = 0 := by omega
    subst ht0
    simp only [pow_zero, mul_one, Nat.add_zero, Nat.sub_zero, Finset.sum_range_one,
      Nat.zero_mul, Nat.zero_add, mul_zero]
    rw [castL_getD, castL_getD, bit_reverse_permutation_getD vN K hK hlen b hb']

theorem stagesZ_inv (om : Fq) (K : Nat) (v a0 : List Fq)
    (h1 : om ^ 2 ^ K = 1) (h2 : om ^ 2 ^ (K - 1) = -1)
    (wf : Nat → Fq) (hwf : ∀ l, 1 ≤ l → l ≤ K → wf l = om ^ 2 ^ (K - l))
    (h0 : stageInv om K v 0 a0) :
    stageInv om K v K (stagesZ wf K (2 ^ K) a0) := by
  rw [stagesZ]
  have main : ∀ s, s ≤ K → stageInv om K v s
      ((List.range s).foldl (fun a s' => bfWhileZ (wf (s' + 1)) (2 ^ (s' + 1))
        (2 ^ (s' + 1) / 2) (2 ^ K) (2 ^ K) 0 a) a0) := by
    intro s
    induction s with
    | zero => intro _; simpa using h0
    | succ s ih =>
      intro hsK
      rw [List.range_succ, List.foldl_append, List.foldl_cons, List.foldl_nil,
        hwf (s + 1) (by omega) (by omega)]
      exact stage_step om K v _ s (by omega) h1 h2 (ih (by omega))
  exact main K le_rfl

theorem stageInv_dft (om : Fq) (K : Nat) (v A : List Fq)
    (hinvK : stageInv om K v K A) :
    ∀ t, t < 2 ^ K → A.getD t 0
      = ∑ u ∈ Finset.range (2 ^ K), v.getD u 0 * om ^ (t * u) := by
  intro t ht
  have h := hinvK.2 0 t (by simp) ht
  simp only [Nat.sub_self, pow_zero, mul_one, one_mul, Nat.zero_mul, Nat.zero_add] at h
  rw [h]
  refine Finset.sum_congr rfl fun u _ => ?_
  have hrv : revBits 0 0 = 0 := rfl
  rw [hrv, Nat.add_zero]

theorem om_ne_zero (om : Fq) (n : Nat) (hn : n ≠ 0) (h1 : om ^ n = 1) : om ≠ 0 := by
  intro h0
  rw [h0, zero_pow hn] at h1
  exact zero_ne_one h1

theorem neg_one_ne_one_Fq : (-1 : Fq) ≠ 1 := by
  intro hc
  have h2 : ((2 : Nat) : Fq) = 0 := by
    push_cast
    linear_combination -hc
  exact natCast_ne_zero_of_lt (by norm_num [P]) (by norm_num) h2

theorem pow_ne_one_of_half (om : Fq) (K : Nat) (hK : 1 ≤ K) (h1 : om ^ 2 ^ K = 1)
    (h2 : om ^ 2 ^ (K - 1) = -1) : ∀ d, 0 < d → d < 2 ^ K → om ^ d ≠ 1 := by
  have hdvd : orderOf om ∣ 2 ^ K := orderOf_dvd_of_pow_eq_one h1
  obtain ⟨i, hiK, hio⟩ := (Nat.dvd_prime_pow Nat.prime_two).mp hdvd
  have hiK' : i = K := by
    by_contra hc
    have hi : i ≤ K - 1 := by omega
    have hhalf : om ^ 2 ^ (K - 1) = 1 := by
      apply orderOf_dvd_iff_pow_eq_one.mp
      rw [hio]
      exact pow_dvd_pow 2 hi
    rw [hhalf] at h2
    exact neg_one_ne_one_Fq h2.symm
  intro d hd0 hdn hcon
  have hdd : orderOf om ∣ d := orderOf_dvd_of_pow_eq_one hcon
  have hled : 2 ^ K ≤ d := by
    have := Nat.le_of_dvd hd0 hdd
    rw [hio, hiK'] at this
    exact this
  omega

theorem pow_inj_of_ord (om : Fq) (n : Nat) (hom0 : om ≠ 0)
    (hord : ∀ d, 0 < d → d < n → om ^ d ≠ 1)
    (u j : Nat) (hu : u < n) (hj : j < n) (h : om ^ u = om ^ j) : u = j := by
  rcases Nat.lt_trichotomy u j with hlt | heq | hgt
  · exfalso
    have hj' : j = (j - u) + u := by omega
    have h3 : om ^ (j - u) * om ^ u = 1 * om ^ u := by
      rw [← pow_add, ← hj', one_mul, ← h]
    exact hord (j - u) (by omega) (by omega) (mul_right_cancel₀ (pow_ne_zero u hom0) h3)
  · exact heq
  · exfalso
    have hu' : u = (u - j) + j := by omega
    have h3 : om ^ (u - j) * om ^ j = 1 * om ^ j := by
      rw [← pow_add, ← hu', one_mul, h]
    exact hord (u - j) (by omega) (by omega) (mul_right_cancel₀ (pow_ne_zero j hom0) h3)

theorem dft_double_sum (om : Fq) (n : Nat) (hn : 0 < n) (homn : om ^ n = 1)
    (hord : ∀ d, 0 < d → d < n → om ^ d ≠ 1) (y : Nat → Fq) (j : Nat) (hj : j < n) :
    ∑ t ∈ Finset.range n, (∑ u ∈ Finset.range n, y u * om ^ (t * u)) * om⁻¹ ^ (j * t)
      = (n : Fq) * y j := by
  have hom0 : om ≠ 0 := om_ne_zero om n (by omega) homn
  calc ∑ t ∈ Finset.range n, (∑ u ∈ Finset.range n, y u * om ^ (t * u)) * om⁻¹ ^ (j * t)
      = ∑ t ∈ Finset.range n, ∑ u ∈ Finset.range n,
          y u * om ^ (t * u) * om⁻¹ ^ (j * t) := by
        refine Finset.sum_congr rfl fun t _ => ?_
        rw [Finset.sum_mul]
    _ = ∑ u ∈ Finset.range n, ∑ t ∈ Finset.range n,
          y u * om ^ (t * u) * om⁻¹ ^ (j * t) := Finset.sum_comm
    _ = ∑ u ∈ Finset.range n, y u * ∑ t ∈ Finset.range n, (om ^ u * om⁻¹ ^ j) ^ t := by
        refine Finset.sum_congr rfl fun u _ => ?_
        rw [Finset.mul_sum]
        refine Finset.sum_congr rfl fun t _ => ?_
        rw [mul_pow, ← pow_mul, ← pow_mul, mul_comm u t, mul_comm j t]
        ring
    _ = ∑ u ∈ Finset.range n, y u * (if u = j then (n : Fq) else 0) := by
        refine Finset.sum_congr rfl fun u hu => ?_
        rw [Finset.mem_range] at hu
        by_cases huj : u = j
        · subst huj
          rw [if_pos rfl]
          have hz : om ^ u * om⁻¹ ^ u = 1 := by
            rw [← mul_pow, mul_inv_cancel₀ hom0, one_pow]
          rw [hz]
          simp
        · rw [if_neg huj]
          have hz1 : (om ^ u * om⁻¹ ^ j) ^ n = 1 := by
            rw [mul_pow, ← pow_mul, ← pow_mul, mul_comm u n, mul_comm j n, pow_mul, pow_mul,
              homn, one_pow, inv_pow, homn, inv_one, one_pow, one_mul]
          have hzne : om ^ u * om⁻¹ ^ j ≠ 1 := by
            intro hc
            have hju : om ^ u = om ^ j := by
              have hmul := congrArg (fun z => z * om ^ j) hc
              simp only [one_mul] at hmul
              rw [mul_assoc, inv_pow, inv_mul_cancel₀ (pow_ne_zero _ hom0), mul_one] at hmul
              exact hmul
            exact huj (pow_inj_of_ord om n hom0 hord u j hu hj hju)
          rw [geom_sum_eq hzne, hz1, sub_self, zero_div, mul_zero]
    _ = (n : Fq) * y j := by
        have hterm : ∀ u ∈ Finset.range n,
            y u * (if u = j then (n : Fq) else 0) = if u = j then y u * n else 0 := by
          intro u _
          split <;> simp
        rw [Finset.sum_congr rfl hterm,
          Finset.sum_ite_eq' (Finset.range n) j (fun u => y u * (n : Fq)),
          if_pos (Finset.mem_range.mpr hj)]
        ring

theorem g28_pow_2_28 : fpow GENERATOR_2_28 (2 ^ 28) = 1 := by decide

theorem g28_pow_2_27 : fpow GENERATOR_2_28 (2 ^ 27) = P - 1 := by decide

/-- The generator as a field element. -/
def gz : Fq := ((GENERATOR_2_28 : Nat) : Fq)

theorem gz_pow_2_28 : gz ^ 2 ^ 28 = 1 := by
  have h := cast_fpow GENERATOR_2_28 (2 ^ 28) (by norm_num)
  rw [g28_pow_2_28] at h
  rw [gz, ← h]
  norm_num

theorem gz_pow_2_27 : gz ^ 2 ^ 27 = -1 := by
  have h := cast_fpow GENERATOR_2_28 (2 ^ 27) (by norm_num)
  rw [g28_pow_2_27] at h
  rw [gz, ← h]
  have h1 : ((P - 1 : Nat) : Fq) = ((P : Nat) : Fq) - 1 := by
    have hP1 : (1 : Nat) ≤ P := by norm_num [P]
    push_cast [hP1]
    ring
  rw [h1, ZMod.natCast_self P]
  ring

theorem cast_dGT (l : Nat) (hl : l ≤ 28) :
    ((domainGeneratorT l : Nat) : Fq) = gz ^ 2 ^ (28 - l) := by
  rw [domainGeneratorT, cast_fpow _ _ (by
    have h28 : (2 : Nat) ^ (28 - l) ≤ 2 ^ 28 := Nat.pow_le_pow_right (by norm_num) (by omega)
    have hlt : (2 : Nat) ^ 28 < 2 ^ 256 := by norm_num
    omega), gz]

theorem omf_pow_n (K : Nat) (hK : K ≤ 28) : (gz ^ 2 ^ (28 - K)) ^ 2 ^ K = 1 := by
  rw [← pow_mul, show (2 : Nat) ^ (28 - K) * 2 ^ K = 2 ^ 28 from by
    rw [← pow_add]; congr 1; omega]
  exact gz_pow_2_28

theorem omf_pow_half (K : Nat) (hK : K ≤ 28) (hK1 : 1 ≤ K) :
    (gz ^ 2 ^ (28 - K)) ^ 2 ^ (K - 1) = -1 := by
  rw [← pow_mul, show (2 : Nat) ^ (28 - K) * 2 ^ (K - 1) = 2 ^ 27 from by
    rw [← pow_add]; congr 1; omega]
  exact gz_pow_2_27

theorem omfi_pow_n (K : Nat) (hK : K ≤ 28) : ((gz ^ 2 ^ (28 - K))⁻¹) ^ 2 ^ K = 1 := by
  rw [inv_pow, omf_pow_n K hK, inv_one]

theorem omfi_pow_half (K : Nat) (hK : K ≤ 28) (hK1 : 1 ≤ K) :
    ((gz ^ 2 ^ (28 - K))⁻¹) ^ 2 ^ (K - 1) = -1 := by
  rw [inv_pow, omf_pow_half K hK hK1, inv_neg, inv_one]

theorem cast_dGT_pow (K l : Nat) (hK : K ≤ 28) (hl1 : 1 ≤ l) (hlK : l ≤ K) :
    ((domainGeneratorT l : Nat) : Fq) = (gz ^ 2 ^ (28 - K)) ^ 2 ^ (K - l) := by
  rw [cast_dGT l (by omega), show (2 : Nat) ^ (28 - l) = 2 ^ (28 - K) * 2 ^ (K - l) from by
    rw [← pow_add]; congr 1; omega, pow_mul]

theorem cast_finv_dGT (K l : Nat) (hK : K ≤ 28) (hl1 : 1 ≤ l) (hlK : l ≤ K) :
    ((finv (domainGeneratorT l) : Nat) : Fq) = ((gz ^ 2 ^ (28 - K))⁻¹) ^ 2 ^ (K - l) := by
  rw [cast_finv (domainGeneratorT l) (by rw [domainGeneratorT]; exact fpow_lt _ _),
    cast_dGT_pow K l hK hl1 hlK, inv_pow]

theorem two_pow_lt_P (k : Nat) (hk : k ≤ 28) : 2 ^ k < P := by
  have h1 : (2 : Nat) ^ k ≤ 2 ^ 28 := Nat.pow_le_pow_right (by norm_num) hk
  have h2 : (2 : Nat) ^ 28 < P := by norm_num [P]
  omega

theorem bfJ_length (wm k halfM : Nat) :
    ∀ fuel j w a, (bfJ wm k halfM fuel j w a).length = a.length
  | 0, _, _, _ => rfl
  | fuel + 1, j, w, a => by
    rw [bfJ, bfJ_length wm k halfM fuel]
    simp

theorem bfWhile_length (wm m halfM n : Nat) :
    ∀ fuel k a, (bfWhile wm m halfM n fuel k a).length = a.length
  | 0, _, _ => rfl
  | fuel + 1, k, a => by
    rw [bfWhile]
    split
    · rw [bfWhile_length wm m halfM n fuel, bfJ_length]
    · rfl

theorem bfWhilefold_length (wnat : Nat → Nat) (n : Nat) :
    ∀ (l : List Nat) (a : List Nat),
      (l.foldl (fun a s => bfWhile (wnat (s + 1)) (2 ^ (s + 1)) (2 ^ (s + 1) / 2) n n 0 a)
        a).length = a.length
  | [], _ => rfl
  | s :: l, a => by
    rw [List.foldl_cons, bfWhilefold_length wnat n l, bfWhile_length]

theorem fft_length (v : List Nat) (K : Nat) : (fft v K).length = v.length := by
  rw [fft]
  split
  · rfl
  · rw [bfWhilefold_length (fun s => domainGeneratorT s) v.length (List.range K),
      bit_reverse_permutation_length]

theorem ifft_length (v : List Nat) (K : Nat) : (ifft v K).length = v.length := by
  rw [ifft]
  split
  · rfl
  · rw [List.length_map,
      bfWhilefold_length (fun s => finv (domainGeneratorT s)) v.length (List.range K),
      bit_reverse_permutation_length]

/-- C7: for every vector `v` of canonical field elements of length `2^k` with
`k ≤ 28`, applying `fft` followed by `ifft` (both with `log_size = k`)
returns `v` unchanged: `IFFT(FFT(v)) = v`. -/
theorem C7_fft_ifft_roundtrip (v : List Nat) (k : Nat) (hk : k ≤ 28)
    (hlen : v.length = 2 ^ k) (hv : allLt v) :
    ifft (fft v k) k = v := by
  by_cases hk0 : k = 0
  · subst hk0
    have h1 : v.length = 1 := by simpa using hlen
    simp [fft, ifft, h1]
  · have hk1 : 1 ≤ k := by omega
    have hf := fft_cast v k hv hlen hk1
    have hwlen : (fft v k).length = 2 ^ k := by rw [fft_length, hlen]
    have hi := ifft_cast (fft v k) k hf.2 hwlen hk1
    have hOm1 := omf_pow_n k hk
    have hOm2 := omf_pow_half k hk hk1
    have hOmI1 := omfi_pow_n k hk
    have hOmI2 := omfi_pow_half k hk hk1
    have hord := pow_ne_one_of_half (gz ^ 2 ^ (28 - k)) k hk1 hOm1 hOm2
    have hpos : 0 < 2 ^ k := Nat.pos_pow_of_pos _ (by norm_num)
    have hInvF := stagesZ_inv (gz ^ 2 ^ (28 - k)) k (castL v)
      (castL (bit_reverse_permutation v k)) hOm1 hOm2
      (fun s => ((domainGeneratorT s : Nat) : Fq))
      (fun l hl1 hlK => cast_dGT_pow k l hk hl1 hlK)
      (stageInv_zero _ k v (by omega) hlen)
    have hDFT : ∀ t, t < 2 ^ k → (castL (fft v k)).getD t 0
        = ∑ u ∈ Finset.range (2 ^ k),
            (castL v).getD u 0 * (gz ^ 2 ^ (28 - k)) ^ (t * u) := by
      intro t ht
      rw [hf.1]
      exact stageInv_dft _ k (castL v) _ hInvF t ht
    have hInvI := stagesZ_inv ((gz ^ 2 ^ (28 - k))⁻¹) k (castL (fft v k))
      (castL (bit_reverse_permutation (fft v k) k)) hOmI1 hOmI2
      (fun s => ((finv (domainGeneratorT s) : Nat) : Fq))
      (fun l hl1 hlK => cast_finv_dGT k l hk hl1 hlK)
      (stageInv_zero _ k (fft v k) (by omega) hwlen)
    have hIDFT := stageInv_dft _ k (castL (fft v k)) _ hInvI
    have h2kP : (2 : Nat) ^ k < P := two_pow_lt_P k hk
    have hnne : ((2 ^ k : Nat) : Fq) ≠ 0 := natCast_ne_zero_of_lt h2kP (by omega)
    have hpoint : ∀ j, j < 2 ^ k → (ifft (fft v k) k).getD j 0 = v.getD j 0 := by
      intro j hj
      refine castFq_inj (allLt_getD hi.2 j) (allLt_getD hv j) ?_
      rw [← castL_getD, ← castL_getD, hi.1]
      have hSlen : (stagesZ (fun s => ((finv (domainGeneratorT s) : Nat) : Fq)) k (2 ^ k)
          (castL (bit_reverse_permutation (fft v k) k))).length = 2 ^ k := by
        rw [stagesZ_length, castL_length, bit_reverse_permutation_length, hwlen]
      rw [List.getD_eq_getElem _ _ (by rw [List.length_map, hSlen]; omega),
        List.getElem_map, ← List.getD_eq_getElem _ _ (by rw [hSlen]; omega)]
      rw [hIDFT j hj]
      rw [Finset.sum_congr rfl (fun t ht => by
        rw [hDFT t (Finset.mem_range.mp ht)])]
      rw [dft_double_sum (gz ^ 2 ^ (28 - k)) (2 ^ k) hpos hOm1 hord
        (fun u => (castL v).getD u 0) j hj]
      rw [cast_finv (2 ^ k) h2kP]
      rw [mul_comm ((2 ^ k : Nat) : Fq) ((castL v).getD j 0), mul_assoc,
        mul_inv_cancel₀ hnne, mul_one]
    apply List.ext_getElem
    · rw [ifft_length, fft_length, hlen]
    · intro i h1 h2
      have hi2 : i < 2 ^ k := by
        rw [hlen] at h2
        exact h2
      have hp := hpoint i hi2
      rw [List.getD_eq_getElem _ 0 h1, List.getD_eq_getElem _ 0 h2] at hp
      exact hp

theorem C7_witness : 2 ≤ 28 ∧ ([1, 2, 3, 4] : List Nat).length = 2 ^ 2
    ∧ allLt [1, 2, 3, 4] ∧ ifft (fft [1, 2, 3, 4] 2) 2 = [1, 2, 3, 4] :=
  ⟨by norm_num, by decide, by unfold allLt; decide,
    C7_fft_ifft_roundtrip [1, 2, 3, 4] 2 (by norm_num) (by decide) (by unfold allLt; decide)⟩
